import Mathlib

/-!
# A verified shallow embedding of the iris-build DSL core

This file embeds the core of the iris-build build-configuration tool in
Lean 4: the runtime value model (`IrisValue`), the environment chain, the
lexer, the recursive-descent parser, the tree-walking interpreter that
accumulates a `BuildConfig`, and the target dependency graph with its
DFS cycle check and Kahn topological sort.  Each definition is a direct
transcription of the corresponding C++ function; theorems at the end of
the file settle the specification claims against these definitions.

Modelling conventions:
* C++ `double` is modelled by `ℚ` (the claims under study never depend on
  binary floating-point rounding); `static_cast<int>` is truncation toward
  zero (`cppTrunc`).
* `std::shared_ptr` graphs of environments are modelled by an explicit
  list of frames (innermost first, global last); the C++ code only ever
  pushes and pops frames linearly, so the list is an exact model.
* Host-provided built-ins (`glob`, `shell`, `print`, ...) perform I/O and
  are outside the pure embedding: calling one yields the distinguished
  outcome `EvalErr.hostBuiltin`.  No claim depends on their behaviour.
* C++ undefined behaviour (the unguarded `%` by zero) is the
  distinguished outcome `EvalErr.ub`, kept separate from ordinary
  `std::runtime_error` propagation (`EvalErr.runtimeError`).
-/

namespace IrisBuild

/-- Truncation toward zero, the semantics of C++ `static_cast<int>(double)`
on in-range values (`q.num.tdiv q.den` truncates the fraction toward 0). -/
def cppTrunc (q : ℚ) : Int := Int.tdiv q.num (Int.ofNat q.den)

/-- The tagged runtime value, mirroring the C++
`std::variant<std::nullptr_t, bool, double, std::string, std::vector<...>, std::map<...>>`
inside `struct IrisValue`. -/
inductive IrisValue : Type where
  | nil : IrisValue
  | bool (b : Bool) : IrisValue
  | num (q : ℚ) : IrisValue
  | str (s : String) : IrisValue
  | arr (elems : List IrisValue) : IrisValue
  | hash (entries : List (String × IrisValue)) : IrisValue

namespace IrisValue

/-- `IrisValue::is_nil`. -/
def is_nil : IrisValue → Bool
  | .nil => true
  | _ => false

/-- `IrisValue::is_bool`. -/
def is_bool : IrisValue → Bool
  | .bool _ => true
  | _ => false

/-- `IrisValue::is_number`. -/
def is_number : IrisValue → Bool
  | .num _ => true
  | _ => false

/-- `IrisValue::is_string`. -/
def is_string : IrisValue → Bool
  | .str _ => true
  | _ => false

/-- `IrisValue::is_array`. -/
def is_array : IrisValue → Bool
  | .arr _ => true
  | _ => false

/-- `IrisValue::is_hash`. -/
def is_hash : IrisValue → Bool
  | .hash _ => true
  | _ => false

/-- `IrisValue::as_bool` (interpreter.cpp lines 24-30): booleans are
themselves, nil is false, a number is true iff nonzero, a string is true
iff nonempty, and arrays/hashes are true. -/
def as_bool : IrisValue → Bool
  | .bool b => b
  | .nil => false
  | .num q => decide (q ≠ 0)
  | .str s => !s.isEmpty
  | _ => true

/-- A model of the prefix-parsing `std::stod`: an optional sign, a run of
digits, and an optional fractional part (exponent and hexadecimal forms
are not modelled; on a completely unparsable string the C++ code catches
the exception and yields `0.0`, modelled by the `none` fallback in
`as_number`).  No claim in this development depends on string-to-number
coercion. -/
def stodModel (s : String) : Option ℚ :=
  let cs := s.toList
  let (sign, cs) : ℚ × List Char :=
    match cs with
    | '-' :: rest => (-1, rest)
    | '+' :: rest => (1, rest)
    | _ => (1, cs)
  let intPart := cs.takeWhile (fun c => '0' ≤ c ∧ c ≤ '9')
  let rest := cs.dropWhile (fun c => '0' ≤ c ∧ c ≤ '9')
  if intPart.isEmpty then none
  else
    let iv : ℚ := (intPart.foldl (fun a c => a * 10 + (c.toNat - '0'.toNat)) (0 : Nat) : Nat)
    match rest with
    | '.' :: rest2 =>
      let frac := rest2.takeWhile (fun c => '0' ≤ c ∧ c ≤ '9')
      let fv : ℚ := (frac.foldl (fun a c => a * 10 + (c.toNat - '0'.toNat)) (0 : Nat) : Nat)
      some (sign * (iv + fv / ((10 : ℚ) ^ frac.length)))
    | _ => some (sign * iv)

/-- `IrisValue::as_number` (interpreter.cpp lines 32-43): numbers are
themselves, bools coerce to 1/0, strings go through `std::stod` with a
`0.0` fallback, and everything else is `0.0`. -/
def as_number : IrisValue → ℚ
  | .num q => q
  | .bool b => if b then 1 else 0
  | .str s => (stodModel s).getD 0
  | _ => 0

/-- `IrisValue::to_string` (interpreter.cpp lines 49-63).  A number prints
as a decimal integer when it equals its integer truncation; the
non-integer branch stands for C++ `std::to_string(double)` formatting,
on which no claim depends. -/
def to_string : IrisValue → String
  | .nil => "nil"
  | .bool b => if b then "true" else "false"
  | .num q => if q = ((cppTrunc q : Int) : ℚ) then toString (cppTrunc q) else toString q
  | .str s => s
  | .arr _ => "[array]"
  | .hash _ => "{hash}"

/-- `IrisValue::as_string` forwards to `to_string`. -/
def as_string (v : IrisValue) : String := v.to_string

end IrisValue

/-! ## Build model (core/engine.hpp) -/

/-- `core::TargetType`. -/
inductive TargetType : Type where
  | Executable | Library | StaticLibrary | SharedLibrary | Object | Custom
  deriving DecidableEq, Repr

/-- Ordered association list sorted by key: the model of `std::map<std::string, T>`,
whose iteration order (key order) matters for the graph algorithms. -/
abbrev Smap (α : Type) : Type := List (String × α)

namespace Smap

/-- `std::map::operator[] = v`: insert or replace, keeping keys sorted. -/
def insert (k : String) (v : α) : Smap α → Smap α
  | [] => [(k, v)]
  | (k2, v2) :: rest =>
    if k < k2 then (k, v) :: (k2, v2) :: rest
    else if k = k2 then (k, v) :: rest
    else (k2, v2) :: insert k v rest

/-- `std::map::find` / `count`. -/
def lookup (k : String) : Smap α → Option α
  | [] => none
  | (k2, v2) :: rest => if k2 = k then some v2 else lookup k rest

/-- The keys, in iteration order. -/
def keys (m : Smap α) : List String := m.map Prod.fst

/-- Keys strictly sorted: the invariant `std::map` maintains. -/
def Sorted (m : Smap α) : Prop := m.Pairwise (fun a b => a.1 < b.1)

end Smap

/-- Sorted duplicate-free list of strings: the model of `std::set<std::string>`. -/
def Sset.insert (k : String) : List String → List String
  | [] => [k]
  | k2 :: rest =>
    if k < k2 then k :: k2 :: rest
    else if k = k2 then k2 :: rest
    else k2 :: Sset.insert k rest

namespace Smap

theorem insert_cons_lt (k k1 : String) (v : α) (v1 : α) (rest : Smap α) (h : k < k1) :
    insert k v ((k1, v1) :: rest) = (k, v) :: (k1, v1) :: rest := by
  simp [insert, h]

theorem insert_cons_eq (k k1 : String) (v : α) (v1 : α) (rest : Smap α)
    (h1 : ¬ k < k1) (h2 : k = k1) :
    insert k v ((k1, v1) :: rest) = (k, v) :: rest := by
  simp [insert, h1, h2]

theorem insert_cons_gt (k k1 : String) (v : α) (v1 : α) (rest : Smap α)
    (h1 : ¬ k < k1) (h2 : ¬ k = k1) :
    insert k v ((k1, v1) :: rest) = (k1, v1) :: insert k v rest := by
  simp [insert, h1, h2]

theorem lookup_cons (k k1 : String) (v1 : α) (rest : Smap α) :
    lookup k ((k1, v1) :: rest) = if k1 = k then some v1 else lookup k rest := rfl

theorem lookup_insert_self (k : String) (v : α) (m : Smap α) :
    lookup k (insert k v m) = some v := by
  induction m with
  | nil => simp [insert, lookup]
  | cons kv rest ih =>
    obtain ⟨k1, v1⟩ := kv
    by_cases h1 : k < k1
    · rw [insert_cons_lt k k1 v v1 rest h1, lookup_cons, if_pos rfl]
    · by_cases h2 : k = k1
      · rw [insert_cons_eq k k1 v v1 rest h1 h2, lookup_cons, if_pos rfl]
      · rw [insert_cons_gt k k1 v v1 rest h1 h2, lookup_cons,
          if_neg (fun hh => h2 hh.symm)]
        exact ih

theorem lookup_insert_ne (k2 k : String) (v : α) (m : Smap α) (h : k2 ≠ k) :
    lookup k2 (insert k v m) = lookup k2 m := by
  induction m with
  | nil =>
    show lookup k2 [(k, v)] = none
    rw [lookup_cons, if_neg (fun hh => h hh.symm)]
    rfl
  | cons kv rest ih =>
    obtain ⟨k1, v1⟩ := kv
    by_cases h1 : k < k1
    · rw [insert_cons_lt k k1 v v1 rest h1, lookup_cons, if_neg (fun hh => h hh.symm)]
    · by_cases h2 : k = k1
      · rw [insert_cons_eq k k1 v v1 rest h1 h2, lookup_cons,
          if_neg (fun hh => h hh.symm), lookup_cons, if_neg (h2 ▸ fun hh => h hh.symm)]
      · rw [insert_cons_gt k k1 v v1 rest h1 h2, lookup_cons, lookup_cons]
        by_cases hk : k1 = k2
        · rw [if_pos hk, if_pos hk]
        · rw [if_neg hk, if_neg hk]
          exact ih

theorem mem_keys_insert (x k : String) (v : α) (m : Smap α) :
    x ∈ keys (insert k v m) ↔ x = k ∨ x ∈ keys m := by
  induction m with
  | nil => simp [insert, keys]
  | cons kv rest ih =>
    obtain ⟨k1, v1⟩ := kv
    by_cases h1 : k < k1
    · rw [insert_cons_lt k k1 v v1 rest h1]
      simp only [keys, List.map_cons, List.mem_cons]
      try tauto
    · by_cases h2 : k = k1
      · rw [insert_cons_eq k k1 v v1 rest h1 h2]
        simp only [keys, List.map_cons, List.mem_cons]
        subst h2
        try tauto
      · rw [insert_cons_gt k k1 v v1 rest h1 h2]
        simp only [keys, List.map_cons, List.mem_cons] at ih ⊢
        rw [ih]
        tauto

theorem lookup_eq_none (k : String) (m : Smap α) (h : ∀ p ∈ m, p.1 ≠ k) :
    lookup k m = none := by
  induction m with
  | nil => rfl
  | cons kv rest ih =>
    obtain ⟨k1, v1⟩ := kv
    rw [lookup_cons, if_neg (h (k1, v1) (List.mem_cons_self _ _))]
    exact ih (fun p hp => h p (List.mem_cons_of_mem _ hp))

theorem mem_keys_of_lookup (k : String) (m : Smap α) (v : α) (h : lookup k m = some v) :
    k ∈ keys m := by
  induction m with
  | nil => simp [lookup] at h
  | cons kv rest ih =>
    obtain ⟨k1, v1⟩ := kv
    rw [lookup_cons] at h
    by_cases hk : k1 = k
    · subst hk
      simp [keys]
    · rw [if_neg hk] at h
      simp only [keys, List.map_cons, List.mem_cons]
      exact Or.inr (ih h)

theorem sorted_insert (k : String) (v : α) (m : Smap α) (h : Sorted m) :
    Sorted (insert k v m) := by
  induction m with
  | nil => simp [insert, Sorted]
  | cons kv rest ih =>
    obtain ⟨k1, v1⟩ := kv
    rw [Sorted, List.pairwise_cons] at h
    obtain ⟨hall, hrest⟩ := h
    by_cases h1 : k < k1
    · rw [insert_cons_lt k k1 v v1 rest h1, Sorted, List.pairwise_cons]
      refine ⟨?_, List.pairwise_cons.mpr ⟨hall, hrest⟩⟩
      intro p hp
      rcases List.mem_cons.mp hp with rfl | hp2
      · exact h1
      · exact lt_trans h1 (hall p hp2)
    · by_cases h2 : k = k1
      · rw [insert_cons_eq k k1 v v1 rest h1 h2, Sorted, List.pairwise_cons]
        exact ⟨fun p hp => h2 ▸ hall p hp, hrest⟩
      · have hk1 : k1 < k := by
          rcases lt_trichotomy k k1 with h | h | h
          · exact absurd h h1
          · exact absurd h h2
          · exact h
        rw [insert_cons_gt k k1 v v1 rest h1 h2, Sorted, List.pairwise_cons]
        constructor
        · intro p hp
          have hmem : p.1 ∈ keys (insert k v rest) :=
            List.mem_map_of_mem Prod.fst hp
          rcases (mem_keys_insert p.1 k v rest).mp hmem with hpk | hpm
          · rw [hpk]; exact hk1
          · obtain ⟨q, hq, hq1⟩ := List.mem_map.mp hpm
            exact hq1 ▸ hall q hq
        · exact ih hrest

theorem Sorted.nodup_keys (m : Smap α) (h : Sorted m) : (keys m).Nodup := by
  unfold keys
  exact List.pairwise_map.mpr (h.imp (fun hlt => ne_of_lt hlt))

theorem lookup_mem (k : String) (m : Smap α) (v : α) (h : lookup k m = some v) :
    (k, v) ∈ m := by
  induction m with
  | nil => simp [lookup] at h
  | cons kv rest ih =>
    obtain ⟨k1, v1⟩ := kv
    rw [lookup_cons] at h
    by_cases hk : k1 = k
    · subst hk
      rw [if_pos rfl] at h
      obtain rfl : v1 = v := by simpa using h
      exact List.mem_cons_self _ _
    · rw [if_neg hk] at h
      exact List.mem_cons_of_mem _ (ih h)

/-- Storing at an existing key leaves the key sequence unchanged
(sorted maps have unique keys). -/
theorem keys_insert_of_mem (k : String) (v : α) (m : Smap α) (hs : Sorted m)
    (hk : k ∈ keys m) : keys (insert k v m) = keys m := by
  induction m with
  | nil => simp [keys] at hk
  | cons kv rest ih =>
    obtain ⟨k1, v1⟩ := kv
    rw [Sorted, List.pairwise_cons] at hs
    obtain ⟨hall, hrest⟩ := hs
    simp only [keys, List.map_cons, List.mem_cons] at hk
    by_cases h1 : k < k1
    · exfalso
      rcases hk with rfl | hk2
      · exact lt_irrefl k h1
      · obtain ⟨q, hq, hq1⟩ := List.mem_map.mp hk2
        exact absurd (lt_trans h1 (hq1 ▸ hall q hq)) (lt_irrefl k)
    · by_cases h2 : k = k1
      · rw [insert_cons_eq k k1 v v1 rest h1 h2]
        simp [keys, h2]
      · rcases hk with hk1 | hk2
        · exact absurd hk1 h2
        · rw [insert_cons_gt k k1 v v1 rest h1 h2]
          simp only [keys, List.map_cons]
          exact congrArg (List.cons k1) (ih hrest hk2)

end Smap

namespace Sset

theorem mem_insert (x k : String) (l : List String) :
    x ∈ Sset.insert k l ↔ x = k ∨ x ∈ l := by
  induction l with
  | nil => simp [Sset.insert]
  | cons k1 rest ih =>
    by_cases h1 : k < k1
    · rw [show Sset.insert k (k1 :: rest) = k :: k1 :: rest from by simp [Sset.insert, h1]]
      simp [List.mem_cons]
    · by_cases h2 : k = k1
      · rw [show Sset.insert k (k1 :: rest) = k1 :: rest from by simp [Sset.insert, h1, h2]]
        subst h2
        simp only [List.mem_cons]
        tauto
      · rw [show Sset.insert k (k1 :: rest) = k1 :: Sset.insert k rest from by
          simp [Sset.insert, h1, h2]]
        simp only [List.mem_cons, ih]
        tauto

theorem sorted_insert_strings (k : String) (l : List String) (h : l.Pairwise (· < ·)) :
    (Sset.insert k l).Pairwise (· < ·) := by
  induction l with
  | nil => simp [Sset.insert]
  | cons k1 rest ih =>
    rw [List.pairwise_cons] at h
    obtain ⟨hall, hrest⟩ := h
    by_cases h1 : k < k1
    · rw [show Sset.insert k (k1 :: rest) = k :: k1 :: rest from by simp [Sset.insert, h1]]
      rw [List.pairwise_cons]
      refine ⟨?_, List.pairwise_cons.mpr ⟨hall, hrest⟩⟩
      intro b hb
      rcases List.mem_cons.mp hb with rfl | hb2
      · exact h1
      · exact lt_trans h1 (hall b hb2)
    · by_cases h2 : k = k1
      · rw [show Sset.insert k (k1 :: rest) = k1 :: rest from by simp [Sset.insert, h1, h2]]
        exact List.pairwise_cons.mpr ⟨hall, hrest⟩
      · have hk1 : k1 < k := by
          rcases lt_trichotomy k k1 with h | h | h
          · exact absurd h h1
          · exact absurd h h2
          · exact h
        rw [show Sset.insert k (k1 :: rest) = k1 :: Sset.insert k rest from by
          simp [Sset.insert, h1, h2]]
        rw [List.pairwise_cons]
        constructor
        · intro b hb
          rcases (mem_insert b k rest).mp hb with rfl | hb2
          · exact hk1
          · exact hall b hb2
        · exact ih hrest

end Sset

/-- `core::Target`. -/
structure Target where
  name : String := ""
  type : TargetType := .Executable
  sources : List String := []
  includes : List String := []
  flags : List String := []
  link_flags : List String := []
  dependencies : List String := []
  defines : Smap String := []

/-- `core::Dependency` (external dependency descriptor). -/
structure Dependency where
  name : String := ""
  version : String := ""
  type : String := ""
  include_dirs : List String := []
  link_dirs : List String := []
  libraries : List String := []

/-- `core::BuildConfig`: the structured result of interpreting a build file. -/
structure BuildConfig where
  project_name : String := ""
  version : String := ""
  language : String := ""
  standard : String := ""
  build_type : String := ""
  compiler : String := ""
  global_flags : List String := []
  global_includes : List String := []
  global_defines : Smap String := []
  targets : List Target := []
  dependencies : List Dependency := []
  vars : Smap String := []

/-! ## Target graph (graph.hpp / graph.cpp) -/

/-- `core::GraphNode`. -/
structure GraphNode where
  name : String := ""
  type : String := ""
  dependencies : List String := []

/-- `core::Graph`: `m_nodes : std::map<std::string, GraphNode>` and
`m_edges : std::map<std::string, std::set<std::string>>`. -/
structure Graph where
  nodes : Smap GraphNode := []
  edges : Smap (List String) := []

namespace Graph

/-- `Graph::add_node`. -/
def add_node (g : Graph) (node : GraphNode) : Graph :=
  { g with nodes := Smap.insert node.name node g.nodes }

/-- `Graph::add_edge`: `m_edges[from].insert(to)` (`operator[]`
default-constructs an empty set). -/
def add_edge (g : Graph) (f t : String) : Graph :=
  { g with edges := Smap.insert f (Sset.insert t ((Smap.lookup f g.edges).getD [])) g.edges }

/-- The `switch` on `target.type` in `Graph::build_from_config`. -/
def nodeTypeName : TargetType → String
  | .Executable => "executable"
  | .Library => "library"
  | .SharedLibrary => "shared_library"
  | _ => "target"

/-- `Graph::build_from_config`: one node per target, and an edge
`target.name → dep` for each dependency. -/
def build_from_config (config : BuildConfig) : Graph :=
  config.targets.foldl
    (fun g target =>
      let node : GraphNode :=
        { name := target.name, type := nodeTypeName target.type,
          dependencies := target.dependencies }
      let g := g.add_node node
      target.dependencies.foldl (fun g dep => g.add_edge target.name dep) g)
    {}

/-- The successor list of a vertex (`m_edges.count(node) ? m_edges.at(node) : ∅`). -/
def adj (g : Graph) (v : String) : List String :=
  (Smap.lookup v g.edges).getD []

/-- The edge relation of the graph. -/
def EdgeRel (g : Graph) (a b : String) : Prop := b ∈ g.adj a

instance (g : Graph) (a b : String) : Decidable (g.EdgeRel a b) := by
  unfold EdgeRel; infer_instance

/-- Every vertex incident to the graph: node keys, edge-map keys and all
edge destinations.  Used as the finite universe for DFS termination and
for the permutation characterisation of acyclicity. -/
def vertexFinset (g : Graph) : Finset String :=
  (g.nodes.keys.toFinset ∪ (g.edges.keys.toFinset ∪
    (g.edges.map (fun kv => kv.2)).flatten.toFinset))

/-- A vertex with no entry in the edge map has no successors; vertices
outside `vertexFinset` in particular. -/
theorem adj_eq_nil (g : Graph) (n : String) (hn : n ∉ g.vertexFinset) : g.adj n = [] := by
  unfold adj
  cases hlk : Smap.lookup n g.edges with
  | none => rfl
  | some tos =>
    exfalso
    apply hn
    unfold vertexFinset
    simp only [Finset.mem_union, List.mem_toFinset]
    exact Or.inr (Or.inl (Smap.mem_keys_of_lookup n g.edges tos hlk))

/-- Visiting a fresh vertex shrinks the DFS termination measure. -/
theorem dfs_decr_visit (g : Graph) (visited : Finset String) (n : String) (ns : List String)
    (hv : n ∉ visited) :
    Prod.Lex (· < ·) (· < ·)
      ((g.vertexFinset \ Insert.insert n visited).card, (g.adj n).length)
      ((g.vertexFinset \ visited).card, (n :: ns).length) := by
  by_cases hn : n ∈ g.vertexFinset
  · have hrw : g.vertexFinset \ Insert.insert n visited = (g.vertexFinset \ visited).erase n := by
      ext x
      simp only [Finset.mem_sdiff, Finset.mem_insert, Finset.mem_erase]
      tauto
    rw [hrw]
    exact Prod.Lex.left _ _
      (Finset.card_erase_lt_of_mem (Finset.mem_sdiff.mpr ⟨hn, hv⟩))
  · have hrw : g.vertexFinset \ Insert.insert n visited = g.vertexFinset \ visited := by
      ext x
      simp only [Finset.mem_sdiff, Finset.mem_insert]
      constructor
      · rintro ⟨hx, hnx⟩
        exact ⟨hx, fun h => hnx (Or.inr h)⟩
      · rintro ⟨hx, hnx⟩
        refine ⟨hx, fun h => ?_⟩
        rcases h with rfl | h
        · exact hn hx
        · exact hnx h
    rw [hrw, adj_eq_nil g n hn]
    exact Prod.Lex.right _ (Nat.succ_pos ns.length)

/-- Continuing with a sibling worklist after the visited set has grown
does not increase the DFS termination measure beyond the shorter list. -/
theorem dfs_decr_sib (g : Graph) (visited v2 : Finset String) (n : String) (ns : List String)
    (h : visited ⊆ v2) :
    Prod.Lex (· < ·) (· < ·)
      ((g.vertexFinset \ v2).card, ns.length)
      ((g.vertexFinset \ visited).card, (n :: ns).length) := by
  rcases lt_or_eq_of_le (Finset.card_le_card
    (Finset.sdiff_subset_sdiff subset_rfl h)) with hlt | heq
  · exact Prod.Lex.left _ _ hlt
  · rw [heq]
    exact Prod.Lex.right _ (Nat.lt_succ_self ns.length)

/-- One step of `Graph::dfs_cycle` (three-colour DFS).  The worklist `l`
is the part of the neighbour loop still to run at the current recursion
level; `stack` is the grey set (`rec_stack`), `visited` the black set.
The returned visited set carries the monotonicity fact needed for
termination, mirroring how the C++ code threads `visited` by reference. -/
def dfsC (g : Graph) (l : List String) (stack visited : Finset String) :
    Bool × { v : Finset String // visited ⊆ v } :=
  match l with
  | [] => (false, ⟨visited, subset_rfl⟩)
  | n :: ns =>
    if n ∈ stack then (true, ⟨visited, subset_rfl⟩)
    else if hv : n ∈ visited then dfsC g ns stack visited
    else
      let r := dfsC g (g.adj n) (Insert.insert n stack) (Insert.insert n visited)
      if r.1 then
        (true, ⟨r.2.val, (Finset.subset_insert n visited).trans r.2.prop⟩)
      else
        let r2 := dfsC g ns stack r.2.val
        (r2.1, ⟨r2.2.val,
          ((Finset.subset_insert n visited).trans r.2.prop).trans r2.2.prop⟩)
termination_by ((g.vertexFinset \ visited).card, l.length)
decreasing_by
  · exact Prod.Lex.right _ (Nat.lt_succ_self _)
  · exact dfs_decr_visit _ _ _ _ hv
  · exact dfs_decr_sib _ _ _ _ _ ((Finset.subset_insert _ _).trans r.2.prop)

/-- The loop of `Graph::has_cycle`: DFS from every node in key order,
accumulating the visited set, with an empty grey stack each time. -/
def hasCycleAux (g : Graph) (l : List String) (visited : Finset String) : Bool :=
  match l with
  | [] => false
  | n :: ns =>
    let r := dfsC g [n] ∅ visited
    if r.1 then true else hasCycleAux g ns r.2.val

/-- `Graph::has_cycle`. -/
def has_cycle (g : Graph) : Bool := hasCycleAux g g.nodes.keys ∅

/-- The neighbour loop inside `Graph::topological_sort`: decrement each
neighbour's in-degree (`operator[]` semantics: absent keys read as 0) and
enqueue it when the degree becomes exactly 0. -/
def processNeighbors : List String → Smap Int → List String → Smap Int × List String
  | [], indeg, queue => (indeg, queue)
  | n :: ns, indeg, queue =>
    let d := (Smap.lookup n indeg).getD 0 - 1
    let indeg' := Smap.insert n d indeg
    let queue' := if d = 0 then queue ++ [n] else queue
    processNeighbors ns indeg' queue'

/-- Clamped total degree, the termination potential of Kahn's loop. -/
def degPot (indeg : Smap Int) : Nat := (indeg.map (fun kv => kv.2.toNat)).sum

/-- Effect of a map-store on the clamped total degree (sorted maps have
no duplicate keys, so exactly one entry is replaced or added). -/
theorem degPot_insert (k : String) (v : Int) (m : Smap Int) (h : Smap.Sorted m) :
    degPot (Smap.insert k v m) + ((Smap.lookup k m).getD 0).toNat
      = degPot m + v.toNat := by
  induction m with
  | nil => simp [Smap.insert, Smap.lookup, degPot]
  | cons kv rest ih =>
    obtain ⟨k1, v1⟩ := kv
    rw [Smap.Sorted, List.pairwise_cons] at h
    obtain ⟨hall, hrest⟩ := h
    simp only [Smap.insert]
    by_cases h1 : k < k1
    · have hnone : Smap.lookup k rest = none := by
        apply Smap.lookup_eq_none
        intro p hp hpk
        have := hall p hp
        rw [hpk] at this
        exact absurd (lt_trans h1 this) (lt_irrefl k)
      simp only [if_pos h1, degPot, List.map_cons, List.sum_cons, Smap.lookup]
      rw [if_neg (fun hh : k1 = k => absurd (hh ▸ h1) (lt_irrefl k1)), hnone]
      simp [degPot]
      omega
    · by_cases heq : k = k1
      · subst heq
        simp only [if_neg h1, if_pos rfl, degPot, List.map_cons, List.sum_cons, Smap.lookup,
          if_pos rfl]
        simp
        omega
      · simp only [if_neg h1, if_neg heq, degPot, List.map_cons, List.sum_cons, Smap.lookup]
        rw [if_neg (fun hh : k1 = k => heq hh.symm)]
        have := ih hrest
        unfold degPot at this
        omega

/-- `processNeighbors` never increases `degPot indeg + queue.length`:
each enqueue is paid for by a degree dropping from 1 to 0. -/
theorem processNeighbors_pot (ns : List String) (indeg : Smap Int) (queue : List String)
    (hs : Smap.Sorted indeg) :
    degPot (processNeighbors ns indeg queue).1 + (processNeighbors ns indeg queue).2.length ≤
      degPot indeg + queue.length := by
  induction ns generalizing indeg queue with
  | nil => simp [processNeighbors]
  | cons n ns ih =>
    simp only [processNeighbors]
    have hs2 : Smap.Sorted (Smap.insert n ((Smap.lookup n indeg).getD 0 - 1) indeg) :=
      Smap.sorted_insert _ _ _ hs
    refine le_trans (ih _ _ hs2) ?_
    have hdp := degPot_insert n ((Smap.lookup n indeg).getD 0 - 1) indeg hs
    by_cases hd : (Smap.lookup n indeg).getD 0 - 1 = 0
    · rw [if_pos hd]
      have hv1 : ((Smap.lookup n indeg).getD 0).toNat = 1 := by omega
      have hv0 : ((Smap.lookup n indeg).getD 0 - 1).toNat = 0 := by omega
      simp only [List.length_append, List.length_singleton]
      omega
    · rw [if_neg hd]
      have hle : ((Smap.lookup n indeg).getD 0 - 1).toNat
          ≤ ((Smap.lookup n indeg).getD 0).toNat := by omega
      omega

/-- `processNeighbors` preserves sortedness of the in-degree map. -/
theorem processNeighbors_sorted (ns : List String) (indeg : Smap Int) (queue : List String)
    (hs : Smap.Sorted indeg) :
    Smap.Sorted (processNeighbors ns indeg queue).1 := by
  induction ns generalizing indeg queue with
  | nil => simpa [processNeighbors] using hs
  | cons n ns ih =>
    simp only [processNeighbors]
    exact ih _ _ (Smap.sorted_insert _ _ _ hs)

/-- Measure fact used by the termination proof of `kahnLoop`: popping the
front of the queue strictly decreases `degPot + queue.length`. -/
theorem kahn_decr (ns : List String) (indeg : Smap Int) (queue : List String)
    (hs : Smap.Sorted indeg) (node : String) :
    degPot (processNeighbors ns indeg queue).1 + (processNeighbors ns indeg queue).2.length <
      degPot indeg + (node :: queue).length := by
  have := processNeighbors_pot ns indeg queue hs
  simp only [List.length_cons]
  omega

/-- The `while (!queue.empty())` loop of `Graph::topological_sort`:
pop the front node, append it to the result, decrement its neighbours.
The sortedness of the in-degree map (a `std::map` invariant) is carried
so the potential argument applies. -/
def kahnLoop (edges : Smap (List String)) (indeg : { m : Smap Int // Smap.Sorted m })
    (queue result : List String) : List String :=
  match queue with
  | [] => result
  | node :: rest =>
    let pr := processNeighbors ((Smap.lookup node edges).getD []) indeg.val rest
    kahnLoop edges ⟨pr.1, processNeighbors_sorted _ _ _ indeg.prop⟩ pr.2 (result ++ [node])
termination_by degPot indeg.val + queue.length
decreasing_by
  exact kahn_decr _ _ _ indeg.prop _

/-- The in-degree map built at the top of `Graph::topological_sort`:
every node starts at 0, then each edge destination is incremented
(`operator[]` inserting absent keys at 0). -/
def buildIndeg (g : Graph) : Smap Int :=
  let indeg0 : Smap Int := g.nodes.foldl (fun m kv => Smap.insert kv.1 0 m) []
  g.edges.foldl
    (fun m kv => kv.2.foldl (fun m t => Smap.insert t ((Smap.lookup t m).getD 0 + 1) m) m)
    indeg0

/-- A left fold of sorted-map inserts preserves sortedness. -/
theorem sorted_foldl {β : Type} (f : Smap Int → β → Smap Int)
    (hf : ∀ m b, Smap.Sorted m → Smap.Sorted (f m b)) (l : List β) (m : Smap Int)
    (hm : Smap.Sorted m) : Smap.Sorted (l.foldl f m) := by
  induction l generalizing m with
  | nil => exact hm
  | cons b bs ih => exact ih _ (hf m b hm)

theorem buildIndeg_sorted (g : Graph) : Smap.Sorted (buildIndeg g) := by
  unfold buildIndeg
  apply sorted_foldl
  · intro m kv hm
    apply sorted_foldl
    · intro m2 t hm2
      exact Smap.sorted_insert _ _ _ hm2
    · exact hm
  · apply sorted_foldl
    · intro m kv hm
      exact Smap.sorted_insert _ _ _ hm
    · exact List.Pairwise.nil

/-- `Graph::topological_sort` (Kahn): zero-in-degree nodes are enqueued
in map iteration order (sorted by name), then peeled. -/
def topological_sort (g : Graph) : List String :=
  let indeg := buildIndeg g
  kahnLoop g.edges ⟨indeg, buildIndeg_sorted g⟩
    ((indeg.filter (fun kv => kv.2 = 0)).map Prod.fst) []

/-- Semantic cycle existence. -/
def HasCycleProp (g : Graph) : Prop := ∃ v, Relation.TransGen g.EdgeRel v v

/-- Invariant of the grey stack during `dfs_cycle`: unless empty, the
stack has a top element whose successors form the current worklist and
which is reachable from every stack element. -/
def StackOk (g : Graph) (stack : Finset String) (l : List String) : Prop :=
  stack = ∅ ∨ ∃ top ∈ stack, (∀ w ∈ l, g.EdgeRel top w) ∧
    ∀ s ∈ stack, Relation.ReflTransGen g.EdgeRel s top

theorem dfsC_sound (g : Graph) (l : List String) (stack visited : Finset String) :
    StackOk g stack l → (dfsC g l stack visited).1 = true → HasCycleProp g := by
  induction l, stack, visited using dfsC.induct g with
  | case1 stack visited =>
    intro _ hres
    simp only [dfsC] at hres
    exact absurd hres (by simp)
  | case2 stack visited n ns hmem =>
    intro hst _
    rcases hst with hempty | ⟨top, htop, hsucc, hreach⟩
    · rw [hempty] at hmem
      exact absurd hmem (Finset.not_mem_empty n)
    · exact ⟨n, Relation.TransGen.tail' (hreach n hmem) (hsucc n (List.mem_cons_self n ns))⟩
  | case3 stack visited n ns hmem hv ih =>
    intro hst hres
    simp only [dfsC, if_neg hmem, dif_pos hv] at hres
    apply ih _ hres
    rcases hst with hempty | ⟨top, htop, hsucc, hreach⟩
    · exact Or.inl hempty
    · exact Or.inr ⟨top, htop, fun w hw => hsucc w (List.mem_cons_of_mem n hw), hreach⟩
  | case4 stack visited n ns hmem hv r hr ih =>
    intro hst _
    apply ih ?_ hr
    refine Or.inr ⟨n, Finset.mem_insert_self n stack, fun w hw => hw, ?_⟩
    intro s hs
    rcases Finset.mem_insert.mp hs with rfl | hs2
    · exact Relation.ReflTransGen.refl
    · rcases hst with hempty | ⟨top, htop, hsucc, hreach⟩
      · rw [hempty] at hs2
        exact absurd hs2 (Finset.not_mem_empty s)
      · exact (hreach s hs2).trans
          (Relation.ReflTransGen.single (hsucc n (List.mem_cons_self n ns)))
  | case5 stack visited n ns hmem hv r hr ih1 ih2 ih3 =>
    intro hst hres
    simp only [dfsC, if_neg hmem, dif_neg hv] at hres
    rw [if_neg hr] at hres
    refine ih3 ?_ hres
    rcases hst with hempty | ⟨top, htop, hsucc, hreach⟩
    · exact Or.inl hempty
    · exact Or.inr ⟨top, htop, fun w hw => hsucc w (List.mem_cons_of_mem n hw), hreach⟩

/-- A vertex is good when no cycle is reachable from it. -/
def Good (g : Graph) (v : String) : Prop :=
  ¬ ∃ c, Relation.ReflTransGen g.EdgeRel v c ∧ Relation.TransGen g.EdgeRel c c

/-- Invariant of the black set: every fully-processed (visited, non-grey)
vertex is good. -/
def GoodInv (g : Graph) (visited stack : Finset String) : Prop :=
  ∀ v ∈ visited, v ∉ stack → Good g v

/-- A vertex all of whose successors are good is good. -/
theorem good_of_succ (g : Graph) (n : String)
    (h : ∀ w, g.EdgeRel n w → Good g w) : Good g n := by
  rintro ⟨c, hreach, hcyc⟩
  rcases Relation.ReflTransGen.cases_head hreach with rfl | ⟨w, hnw, hwc⟩
  · obtain ⟨w, hnw, hwn⟩ := Relation.TransGen.head'_iff.mp hcyc
    exact h w hnw ⟨n, hwn, hcyc⟩
  · exact h w hnw ⟨c, hwc, hcyc⟩

theorem dfsC_complete (g : Graph) (l : List String) (stack visited : Finset String) :
    GoodInv g visited stack → (dfsC g l stack visited).1 = false →
    GoodInv g (dfsC g l stack visited).2.val stack ∧
      (∀ w ∈ l, w ∈ (dfsC g l stack visited).2.val) ∧ (∀ w ∈ l, w ∉ stack) := by
  induction l, stack, visited using dfsC.induct g with
  | case1 stack visited =>
    intro hg _
    simp only [dfsC]
    exact ⟨hg, by simp, by simp⟩
  | case2 stack visited n ns hmem =>
    intro _ hres
    simp only [dfsC, if_pos hmem] at hres
    exact absurd hres (by simp)
  | case3 stack visited n ns hmem hv ih =>
    intro hg hres
    simp only [dfsC, if_neg hmem, dif_pos hv] at hres ⊢
    obtain ⟨h1, h2, h3⟩ := ih hg hres
    refine ⟨h1, ?_, ?_⟩
    · intro w hw
      rcases List.mem_cons.mp hw with rfl | hw2
      · exact (dfsC g ns stack visited).2.prop hv
      · exact h2 w hw2
    · intro w hw
      rcases List.mem_cons.mp hw with rfl | hw2
      · exact hmem
      · exact h3 w hw2
  | case4 stack visited n ns hmem hv r hr ih =>
    intro _ hres
    simp only [dfsC, if_neg hmem, dif_neg hv] at hres
    rw [if_pos hr] at hres
    exact absurd hres (by simp)
  | case5 stack visited n ns hmem hv r hr ih1 ih2 ih3 =>
    intro hg hres
    simp only [dfsC, if_neg hmem, dif_neg hv] at hres ⊢
    rw [if_neg hr] at hres
    have hg1 : GoodInv g (Insert.insert n visited) (Insert.insert n stack) := by
      intro v hvmem hvstack
      rcases Finset.mem_insert.mp hvmem with rfl | hv2
      · exact absurd (Finset.mem_insert_self v stack) hvstack
      · exact hg v hv2 (fun hs => hvstack (Finset.mem_insert_of_mem hs))
    obtain ⟨hA, hB, hC⟩ := ih1 hg1 (by simpa using hr)
    have hgood_n : Good g n := by
      apply good_of_succ
      intro w hw
      exact hA w (hB w hw) (hC w hw)
    have hg2 : GoodInv g
        (dfsC g (g.adj n) (Insert.insert n stack) (Insert.insert n visited)).2.val stack := by
      intro v hvmem hvstack
      by_cases hvn : v = n
      · exact hvn ▸ hgood_n
      · exact hA v hvmem (fun hs => (Finset.mem_insert.mp hs).elim hvn hvstack)
    obtain ⟨hD, hE, hF⟩ := ih3 hg2 hres
    rw [if_neg hr]
    refine ⟨hD, ?_, ?_⟩
    · intro w hw
      rcases List.mem_cons.mp hw with rfl | hw2
      · exact (dfsC g ns stack _).2.prop
          ((dfsC g (g.adj w) (Insert.insert w stack) (Insert.insert w visited)).2.prop
            (Finset.mem_insert_self w visited))
      · exact hE w hw2
    · intro w hw
      rcases List.mem_cons.mp hw with rfl | hw2
      · exact hmem
      · exact hF w hw2

/-- If the `has_cycle` scan comes back `false`, every scanned start
vertex is good. -/
theorem hasCycleAux_good (g : Graph) (l : List String) (visited : Finset String)
    (hg : GoodInv g visited ∅) (hres : hasCycleAux g l visited = false) :
    ∀ n ∈ l, Good g n := by
  induction l generalizing visited with
  | nil => simp
  | cons n ns ih =>
    rw [hasCycleAux] at hres
    by_cases hr : (dfsC g [n] ∅ visited).1
    · rw [if_pos hr] at hres
      exact absurd hres (by simp)
    · rw [if_neg hr] at hres
      obtain ⟨h1, h2, _⟩ := dfsC_complete g [n] ∅ visited hg (by simpa using hr)
      intro m hm
      rcases List.mem_cons.mp hm with rfl | hm2
      · exact h1 m (h2 m (List.mem_cons_self m [])) (Finset.not_mem_empty m)
      · exact ih _ (fun v hv _ => h1 v hv (Finset.not_mem_empty v)) hres m hm2

/-- Any `true` from the `has_cycle` scan certifies a semantic cycle. -/
theorem hasCycleAux_sound (g : Graph) (l : List String) (visited : Finset String)
    (h : hasCycleAux g l visited = true) : HasCycleProp g := by
  induction l generalizing visited with
  | nil => rw [hasCycleAux] at h; exact absurd h (by simp)
  | cons n ns ih =>
    rw [hasCycleAux] at h
    by_cases hr : (dfsC g [n] ∅ visited).1
    · exact dfsC_sound g [n] ∅ visited (Or.inl rfl) hr
    · rw [if_neg hr] at h
      exact ih _ h

/-- `has_cycle` decides semantic cycle existence, for graphs in which
every edge source is a node (true of every graph built from a
`BuildConfig`). -/
theorem has_cycle_iff (g : Graph)
    (hsrc : ∀ a b, g.EdgeRel a b → a ∈ g.nodes.keys) :
    g.has_cycle = true ↔ HasCycleProp g := by
  constructor
  · exact hasCycleAux_sound g g.nodes.keys ∅
  · intro hc
    by_contra hne
    have hfalse : g.has_cycle = false := by
      cases hcv : g.has_cycle
      · rfl
      · exact absurd hcv hne
    obtain ⟨v, hv⟩ := hc
    obtain ⟨w, hvw, hwv⟩ := (Relation.TransGen.head'_iff).mp hv
    have hvnode : v ∈ g.nodes.keys := hsrc v w hvw
    have hgood := hasCycleAux_good g g.nodes.keys ∅
      (fun x hx _ => absurd hx (Finset.not_mem_empty x)) hfalse v hvnode
    exact hgood ⟨v, Relation.ReflTransGen.refl, hv⟩

/-- An edge source is a vertex of the graph. -/
theorem src_mem_vertexFinset (g : Graph) (a b : String) (hab : g.EdgeRel a b) :
    a ∈ g.vertexFinset := by
  unfold EdgeRel adj at hab
  cases hlk : Smap.lookup a g.edges with
  | none => rw [hlk] at hab; simp at hab
  | some tos =>
    unfold vertexFinset
    simp only [Finset.mem_union, List.mem_toFinset]
    exact Or.inr (Or.inl (Smap.mem_keys_of_lookup a g.edges tos hlk))

/-- A map lookup result is one of the stored values. -/
theorem Smap_lookup_mem_values {α : Type} (k : String) (m : Smap α) (v : α)
    (h : Smap.lookup k m = some v) : ∃ p ∈ m, p.2 = v := by
  induction m with
  | nil => simp [Smap.lookup] at h
  | cons kv rest ih =>
    obtain ⟨k1, v1⟩ := kv
    rw [Smap.lookup_cons] at h
    by_cases hk : k1 = k
    · rw [if_pos hk] at h
      exact ⟨(k1, v1), List.mem_cons_self _ _, by simpa using h⟩
    · rw [if_neg hk] at h
      obtain ⟨p, hp, hpv⟩ := ih h
      exact ⟨p, List.mem_cons_of_mem _ hp, hpv⟩

/-- An edge destination is a vertex of the graph. -/
theorem dst_mem_vertexFinset (g : Graph) (a b : String) (hab : g.EdgeRel a b) :
    b ∈ g.vertexFinset := by
  unfold EdgeRel adj at hab
  cases hlk : Smap.lookup a g.edges with
  | none => rw [hlk] at hab; simp at hab
  | some tos =>
    rw [hlk] at hab
    simp only [Option.getD_some] at hab
    obtain ⟨p, hp, hpv⟩ := Smap_lookup_mem_values a g.edges tos hlk
    unfold vertexFinset
    simp only [Finset.mem_union, List.mem_toFinset, List.mem_flatten]
    exact Or.inr (Or.inr ⟨p.2, List.mem_map_of_mem _ hp, hpv ▸ hab⟩)

/-- A topological permutation of the graph: a duplicate-free arrangement
of exactly the graph vertices in which every edge goes forward. -/
def IsTopoOrder (g : Graph) (p : List String) : Prop :=
  p.Nodup ∧ (∀ v, v ∈ p ↔ v ∈ g.vertexFinset) ∧
    ∀ a b, g.EdgeRel a b → p.indexOf a < p.indexOf b

/-- A graph with a cycle has no topological permutation. -/
theorem no_topo_of_cycle (g : Graph) (hc : HasCycleProp g) :
    ¬ ∃ p, IsTopoOrder g p := by
  rintro ⟨p, _, _, hord⟩
  obtain ⟨v, hv⟩ := hc
  have hmono : ∀ a b, Relation.TransGen g.EdgeRel a b → p.indexOf a < p.indexOf b := by
    intro a b h
    induction h with
    | single h1 => exact hord _ _ h1
    | tail _ h2 ih => exact lt_trans ih (hord _ _ h2)
  exact lt_irrefl _ (hmono v v hv)

/-- In an acyclic graph every nonempty vertex set has a member with no
predecessor inside the set (otherwise a backwards walk would repeat a
vertex, yielding a cycle). -/
theorem exists_source (g : Graph) (hnc : ¬ HasCycleProp g) (l : List String)
    (hne : l ≠ []) : ∃ m ∈ l, ∀ u ∈ l, ¬ g.EdgeRel u m := by
  by_contra hno
  push_neg at hno
  apply hnc
  have hpick : ∀ m : { x // x ∈ l }, { u : { x // x ∈ l } // g.EdgeRel u.val m.val } := by
    intro m
    have := hno m.val m.prop
    exact ⟨⟨Classical.choose this, (Classical.choose_spec this).1⟩,
      (Classical.choose_spec this).2⟩
  obtain ⟨v0, hv0⟩ := List.exists_mem_of_ne_nil l hne
  let step : { x // x ∈ l } → { x // x ∈ l } := fun m => (hpick m).val
  let chain : ℕ → { x // x ∈ l } := fun n => step^[n] ⟨v0, hv0⟩
  have hstep : ∀ n, g.EdgeRel (chain (n + 1)).val (chain n).val := by
    intro n
    have : chain (n + 1) = step (chain n) := Function.iterate_succ_apply' step n _
    rw [this]
    exact (hpick (chain n)).prop
  have htg : ∀ d i, Relation.TransGen g.EdgeRel (chain (i + d + 1)).val (chain i).val := by
    intro d
    induction d with
    | zero => intro i; exact Relation.TransGen.single (hstep i)
    | succ k ih =>
      intro i
      have h1 : g.EdgeRel (chain (i + (k + 1) + 1)).val (chain (i + k + 1)).val :=
        hstep (i + k + 1)
      exact Relation.TransGen.head h1 (ih i)
  have hcard : Fintype.card { y // y ∈ l.toFinset } < Fintype.card (Fin (l.length + 1)) := by
    rw [Fintype.card_coe, Fintype.card_fin]
    exact Nat.lt_succ_of_le (List.toFinset_card_le l)
  obtain ⟨i, j, hij, heq⟩ := Fintype.exists_ne_map_eq_of_card_lt
    (fun i : Fin (l.length + 1) =>
      (⟨(chain i.val).val, List.mem_toFinset.mpr (chain i.val).prop⟩ : { y // y ∈ l.toFinset }))
    hcard
  have hvals : (chain i.val).val = (chain j.val).val := by
    have := congrArg (fun z : { y // y ∈ l.toFinset } => z.val) heq
    simpa using this
  rcases Ne.lt_or_lt (fun h => hij (Fin.ext h) : i.val ≠ j.val) with hlt | hlt
  · refine ⟨(chain i.val).val, ?_⟩
    have := htg (j.val - i.val - 1) i.val
    rw [show i.val + (j.val - i.val - 1) + 1 = j.val from by omega] at this
    rw [hvals]
    exact hvals ▸ this
  · refine ⟨(chain j.val).val, ?_⟩
    have := htg (i.val - j.val - 1) j.val
    rw [show j.val + (i.val - j.val - 1) + 1 = i.val from by omega] at this
    exact hvals ▸ this

/-- Acyclicity gives a forward-edge arrangement of any duplicate-free
vertex list, by repeatedly extracting a source. -/
theorem exists_topo_aux (g : Graph) (hnc : ¬ HasCycleProp g) :
    ∀ (n : ℕ) (l : List String), l.length = n → l.Nodup →
    ∃ p : List String, p.Nodup ∧ (∀ v, v ∈ p ↔ v ∈ l) ∧
      ∀ a b, g.EdgeRel a b → a ∈ l → b ∈ l → p.indexOf a < p.indexOf b := by
  intro n
  induction n with
  | zero =>
    intro l hlen _
    rw [List.length_eq_zero] at hlen
    subst hlen
    exact ⟨[], List.nodup_nil, by simp, by simp⟩
  | succ k ih =>
    intro l hlen hnd
    have hne : l ≠ [] := by
      intro h
      rw [h] at hlen
      simp at hlen
    obtain ⟨m, hm, hnoin⟩ := exists_source g hnc l hne
    have hlen2 : (l.erase m).length = k := by
      rw [List.length_erase_of_mem hm, hlen]
      rfl
    obtain ⟨p, hpnd, hpmem, hpord⟩ := ih (l.erase m) hlen2 (hnd.erase m)
    have hmnotp : m ∉ p := by
      intro hmp
      exact (hnd.not_mem_erase) ((hpmem m).mp hmp)
    refine ⟨m :: p, List.nodup_cons.mpr ⟨hmnotp, hpnd⟩, ?_, ?_⟩
    · intro v
      rw [List.mem_cons, hpmem]
      constructor
      · rintro (rfl | hv)
        · exact hm
        · exact List.mem_of_mem_erase hv
      · intro hv
        by_cases hvm : v = m
        · exact Or.inl hvm
        · exact Or.inr ((List.mem_erase_of_ne hvm).mpr hv)
    · intro a b hab ha hb
      by_cases hbm : b = m
      · exact absurd (hbm ▸ hab) (hnoin a ha)
      · have hbe : b ∈ l.erase m := (List.mem_erase_of_ne hbm).mpr hb
        by_cases ham : a = m
        · subst ham
          rw [List.indexOf_cons_self]
          have : p.indexOf b < p.length :=
            List.indexOf_lt_length.mpr ((hpmem b).mpr hbe)
          rw [List.indexOf_cons_ne p (fun h => hbm h.symm)]
          exact Nat.succ_pos _
        · have hae : a ∈ l.erase m := (List.mem_erase_of_ne ham).mpr ha
          rw [List.indexOf_cons_ne p (fun h => ham h.symm),
            List.indexOf_cons_ne p (fun h => hbm h.symm)]
          exact Nat.succ_lt_succ (hpord a b hab hae hbe)

/-- An acyclic graph admits a topological permutation of its vertices. -/
theorem exists_topo_of_no_cycle (g : Graph) (hnc : ¬ HasCycleProp g) :
    ∃ p, IsTopoOrder g p := by
  obtain ⟨p, hnd, hmem, hord⟩ := exists_topo_aux g hnc
    g.vertexFinset.toList.length g.vertexFinset.toList rfl (Finset.nodup_toList _)
  refine ⟨p, hnd, ?_, ?_⟩
  · intro v
    rw [hmem v, Finset.mem_toList]
  · intro a b hab
    refine hord a b hab ?_ ?_ <;> rw [Finset.mem_toList]
    · exact src_mem_vertexFinset g a b hab
    · exact dst_mem_vertexFinset g a b hab

theorem Smap_mem_insert_elim {α : Type} (kv : String × α) (k : String) (v : α) (m : Smap α)
    (h : kv ∈ Smap.insert k v m) : kv = (k, v) ∨ kv ∈ m := by
  induction m with
  | nil => simpa [Smap.insert] using h
  | cons kv1 rest ih =>
    obtain ⟨k1, v1⟩ := kv1
    by_cases h1 : k < k1
    · rw [Smap.insert_cons_lt k k1 v v1 rest h1] at h
      rcases List.mem_cons.mp h with rfl | h2
      · exact Or.inl rfl
      · exact Or.inr h2
    · by_cases h2 : k = k1
      · rw [Smap.insert_cons_eq k k1 v v1 rest h1 h2] at h
        rcases List.mem_cons.mp h with rfl | h3
        · exact Or.inl rfl
        · exact Or.inr (List.mem_cons_of_mem _ h3)
      · rw [Smap.insert_cons_gt k k1 v v1 rest h1 h2] at h
        rcases List.mem_cons.mp h with rfl | h3
        · exact Or.inr (List.mem_cons_self _ _)
        · rcases ih h3 with h4 | h4
          · exact Or.inl h4
          · exact Or.inr (List.mem_cons_of_mem _ h4)

/-- `add_node` does not touch the edge map, hence the edge relation. -/
theorem add_node_edgeRel (g : Graph) (node : GraphNode) (a b : String) :
    (g.add_node node).EdgeRel a b ↔ g.EdgeRel a b := Iff.rfl

/-- Effect of `add_edge` on adjacency. -/
theorem add_edge_adj (g : Graph) (f t x : String) :
    (g.add_edge f t).adj x =
      if x = f then Sset.insert t (g.adj x) else g.adj x := by
  unfold add_edge adj
  by_cases hx : x = f
  · subst hx
    simp [Smap.lookup_insert_self]
  · rw [if_neg hx, Smap.lookup_insert_ne x f _ g.edges hx]

/-- The structural well-formedness facts of any graph produced by
`build_from_config`: both maps sorted, every adjacency set sorted, and
every edge source among the node keys. -/
def WellFormed (g : Graph) : Prop :=
  Smap.Sorted g.nodes ∧ Smap.Sorted g.edges ∧
    (∀ kv ∈ g.edges, kv.2.Pairwise (· < ·)) ∧
    (∀ a b, g.EdgeRel a b → a ∈ Smap.keys g.nodes)

theorem add_edge_wf (g : Graph) (f t : String) (hw : WellFormed g)
    (hf : f ∈ Smap.keys g.nodes) : WellFormed (g.add_edge f t) := by
  obtain ⟨hn, he, hv, hs⟩ := hw
  refine ⟨hn, Smap.sorted_insert _ _ _ he, ?_, ?_⟩
  · intro kv hkv
    rcases Smap_mem_insert_elim kv f _ g.edges hkv with rfl | h2
    · apply Sset.sorted_insert_strings
      cases hlk : Smap.lookup f g.edges with
      | none => simp
      | some tos =>
        simp only [Option.getD_some]
        exact hv (f, tos) (Smap.lookup_mem f g.edges tos hlk)
    · exact hv kv h2
  · intro a b hab
    unfold EdgeRel at hab
    rw [add_edge_adj] at hab
    by_cases haf : a = f
    · exact haf ▸ hf
    · rw [if_neg haf] at hab
      exact hs a b hab

theorem add_node_wf (g : Graph) (node : GraphNode) (hw : WellFormed g) :
    WellFormed (g.add_node node) := by
  obtain ⟨hn, he, hv, hs⟩ := hw
  refine ⟨Smap.sorted_insert _ _ _ hn, he, hv, ?_⟩
  intro a b hab
  rw [add_node_edgeRel] at hab
  unfold add_node
  simp only [Smap.mem_keys_insert]
  exact Or.inr (hs a b hab)

theorem add_node_mem_keys (g : Graph) (node : GraphNode) :
    node.name ∈ Smap.keys (g.add_node node).nodes := by
  unfold add_node
  simp [Smap.mem_keys_insert]

theorem add_edge_nodes (g : Graph) (f t : String) : (g.add_edge f t).nodes = g.nodes := rfl

theorem deps_fold_wf (deps : List String) (f : String) :
    ∀ (g : Graph), WellFormed g → f ∈ Smap.keys g.nodes →
    WellFormed (deps.foldl (fun g dep => g.add_edge f dep) g) ∧
      (deps.foldl (fun g dep => g.add_edge f dep) g).nodes = g.nodes := by
  induction deps with
  | nil => intro g hw _; exact ⟨hw, rfl⟩
  | cons d ds ih =>
    intro g hw hf
    simp only [List.foldl_cons]
    obtain ⟨h1, h2⟩ := ih (g.add_edge f d) (add_edge_wf g f d hw hf)
      (by rw [add_edge_nodes]; exact hf)
    exact ⟨h1, by rw [h2, add_edge_nodes]⟩

theorem build_from_config_wf (config : BuildConfig) :
    WellFormed (build_from_config config) := by
  unfold build_from_config
  have : ∀ (ts : List Target) (g : Graph), WellFormed g →
      WellFormed (ts.foldl
        (fun g target =>
          let node : GraphNode :=
            { name := target.name, type := nodeTypeName target.type,
              dependencies := target.dependencies }
          let g := g.add_node node
          target.dependencies.foldl (fun g dep => g.add_edge target.name dep) g) g) := by
    intro ts
    induction ts with
    | nil => intro g hw; exact hw
    | cons t ts ih =>
      intro g hw
      simp only [List.foldl_cons]
      apply ih
      exact (deps_fold_wf t.dependencies t.name _ (add_node_wf g _ hw)
        (add_node_mem_keys g _)).1
  exact this config.targets {} ⟨List.Pairwise.nil, List.Pairwise.nil, by simp, by
    intro a b hab
    unfold EdgeRel adj Smap.lookup at hab
    simp at hab⟩

/-- Every `(target, dep)` pair of the configuration becomes an edge. -/
theorem build_edge_of_dep (config : BuildConfig) (t : Target) (ht : t ∈ config.targets)
    (b : String) (hb : b ∈ t.dependencies) :
    (build_from_config config).EdgeRel t.name b := by
  unfold build_from_config
  have hmono : ∀ (deps : List String) (f : String) (g : Graph) (a c : String),
      g.EdgeRel a c → (deps.foldl (fun g dep => g.add_edge f dep) g).EdgeRel a c := by
    intro deps
    induction deps with
    | nil => intro f g a c h; exact h
    | cons d ds ih =>
      intro f g a c h
      simp only [List.foldl_cons]
      apply ih
      unfold EdgeRel
      rw [add_edge_adj]
      by_cases haf : a = f
      · rw [if_pos haf]
        exact (Sset.mem_insert c d _).mpr (Or.inr (haf ▸ h))
      · rw [if_neg haf]
        exact h
  have hstep : ∀ (deps : List String) (f : String) (g : Graph) (b : String), b ∈ deps →
      (deps.foldl (fun g dep => g.add_edge f dep) g).EdgeRel f b := by
    intro deps
    induction deps with
    | nil => intro f g b hb; simp at hb
    | cons d ds ih =>
      intro f g b hb
      simp only [List.foldl_cons]
      rcases List.mem_cons.mp hb with rfl | hb2
      · apply hmono
        unfold EdgeRel
        rw [add_edge_adj]
        rw [if_pos rfl]
        exact (Sset.mem_insert b b _).mpr (Or.inl rfl)
      · exact ih f _ b hb2
  have hmain : ∀ (ts : List Target) (g : Graph),
      (∀ t2 ∈ ts, True) → t ∈ ts ∨ g.EdgeRel t.name b →
      (ts.foldl
        (fun g target =>
          let node : GraphNode :=
            { name := target.name, type := nodeTypeName target.type,
              dependencies := target.dependencies }
          let g := g.add_node node
          target.dependencies.foldl (fun g dep => g.add_edge target.name dep) g) g).EdgeRel
        t.name b := by
    intro ts
    induction ts with
    | nil =>
      intro g _ h
      rcases h with h | h
      · simp at h
      · exact h
    | cons t2 ts ih =>
      intro g _ h
      simp only [List.foldl_cons]
      apply ih _ (fun _ _ => trivial)
      rcases h with h | h
      · rcases List.mem_cons.mp h with rfl | h2
        · exact Or.inr (hstep t.dependencies t.name _ b hb)
        · exact Or.inl h2
      · exact Or.inr (hmono t2.dependencies t2.name _ _ _ h)
  exact hmain config.targets {} (fun _ _ => trivial) (Or.inl ht)

/-- With duplicate-free keys, membership determines the lookup result. -/
theorem Smap_lookup_of_mem_nodup {α : Type} (k : String) (v : α) (m : Smap α)
    (hnd : (Smap.keys m).Nodup) (h : (k, v) ∈ m) : Smap.lookup k m = some v := by
  induction m with
  | nil => simp at h
  | cons kv rest ih =>
    obtain ⟨k1, v1⟩ := kv
    simp only [Smap.keys, List.map_cons, List.nodup_cons] at hnd
    rw [Smap.lookup_cons]
    rcases List.mem_cons.mp h with heq | h2
    · obtain ⟨rfl, rfl⟩ := Prod.mk.injEq .. ▸ heq
      simp
    · have hk1 : k1 ≠ k := by
        intro hh
        subst hh
        exact hnd.1 (List.mem_map_of_mem Prod.fst h2)
      rw [if_neg hk1]
      exact ih hnd.2 h2

theorem Smap_lookup_isSome_iff_mem_keys {α : Type} (k : String) (m : Smap α) :
    (Smap.lookup k m).isSome ↔ k ∈ Smap.keys m := by
  induction m with
  | nil => simp [Smap.lookup, Smap.keys]
  | cons kv rest ih =>
    obtain ⟨k1, v1⟩ := kv
    rw [Smap.lookup_cons]
    by_cases hk : k1 = k
    · subst hk
      simp [Smap.keys]
    · rw [if_neg hk]
      simp only [Smap.keys, List.map_cons, List.mem_cons]
      rw [ih]
      unfold Smap.keys
      constructor
      · exact fun h => Or.inr h
      · rintro (h | h)
        · exact absurd h.symm hk
        · exact h


/-- The total number of edges into `x` (each adjacency set is
duplicate-free, so this is the in-degree). -/
def cntIn (g : Graph) (x : String) : Int :=
  ((g.edges.filter (fun kv => decide (x ∈ kv.2))).length : Int)

/-- How many of the vertices already emitted are predecessors of `x`. -/
def cntPred (g : Graph) (x : String) (result : List String) : Int :=
  ((result.filter (fun u => decide (g.EdgeRel u x))).length : Int)

theorem cntPred_nil (g : Graph) (x : String) : cntPred g x [] = 0 := rfl

theorem cntPred_append_singleton (g : Graph) (x : String) (result : List String) (u : String) :
    cntPred g x (result ++ [u]) =
      cntPred g x result + (if g.EdgeRel u x then 1 else 0) := by
  unfold cntPred
  rw [List.filter_append, List.length_append]
  by_cases h : g.EdgeRel u x
  · simp [h]
  · simp [h]

theorem edgeRel_of_entry (g : Graph) (hk : (Smap.keys g.edges).Nodup)
    (kv : String × List String) (hkv : kv ∈ g.edges) (x : String) (hx : x ∈ kv.2) :
    g.EdgeRel kv.1 x := by
  unfold EdgeRel adj
  rw [Smap_lookup_of_mem_nodup kv.1 kv.2 g.edges hk hkv]
  simpa using hx

theorem entry_of_edgeRel (g : Graph) (u x : String) (h : g.EdgeRel u x) :
    ∃ tos, (u, tos) ∈ g.edges ∧ x ∈ tos := by
  unfold EdgeRel adj at h
  cases hlk : Smap.lookup u g.edges with
  | none => rw [hlk] at h; simp at h
  | some tos =>
    rw [hlk] at h
    exact ⟨tos, Smap.lookup_mem u g.edges tos hlk, by simpa using h⟩

/-- The sources-with-an-edge-to-`x` among the emitted list, as a finset. -/
theorem cntPred_eq_card (g : Graph) (x : String) (result : List String)
    (hnd : result.Nodup) :
    cntPred g x result = ((result.filter (fun u => decide (g.EdgeRel u x))).toFinset.card : Int) := by
  unfold cntPred
  rw [List.toFinset_card_of_nodup (hnd.filter _)]

theorem cntIn_eq_card (g : Graph) (x : String) (hk : (Smap.keys g.edges).Nodup) :
    cntIn g x = (((g.edges.filter (fun kv => decide (x ∈ kv.2))).map Prod.fst).toFinset.card : Int) := by
  unfold cntIn
  have hnd : ((g.edges.filter (fun kv => decide (x ∈ kv.2))).map Prod.fst).Nodup := by
    have hsub : (g.edges.filter (fun kv => decide (x ∈ kv.2))).Sublist g.edges :=
      List.filter_sublist _
    exact List.Nodup.sublist (hsub.map Prod.fst) hk
  rw [List.toFinset_card_of_nodup hnd, List.length_map]

theorem predFinset_subset (g : Graph) (x : String) (result : List String) :
    (result.filter (fun u => decide (g.EdgeRel u x))).toFinset ⊆
      ((g.edges.filter (fun kv => decide (x ∈ kv.2))).map Prod.fst).toFinset := by
  intro u hu
  rw [List.mem_toFinset, List.mem_filter] at hu
  obtain ⟨tos, htos, hx⟩ := entry_of_edgeRel g u x (by simpa using hu.2)
  rw [List.mem_toFinset, List.mem_map]
  exact ⟨(u, tos), List.mem_filter.mpr ⟨htos, by simpa using hx⟩, rfl⟩

/-- If all predecessors of `x` are in the emitted list, the counters agree. -/
theorem cntPred_eq_cntIn_of_all (g : Graph) (x : String) (result : List String)
    (hnd : result.Nodup) (hk : (Smap.keys g.edges).Nodup)
    (hall : ∀ u, g.EdgeRel u x → u ∈ result) :
    cntPred g x result = cntIn g x := by
  rw [cntPred_eq_card g x result hnd, cntIn_eq_card g x hk]
  have hset : (result.filter (fun u => decide (g.EdgeRel u x))).toFinset =
      ((g.edges.filter (fun kv => decide (x ∈ kv.2))).map Prod.fst).toFinset := by
    apply Finset.Subset.antisymm (predFinset_subset g x result)
    intro u hu
    rw [List.mem_toFinset, List.mem_map] at hu
    obtain ⟨kv, hkv, rfl⟩ := hu
    rw [List.mem_filter] at hkv
    have hedge : g.EdgeRel kv.1 x := edgeRel_of_entry g hk kv hkv.1 x (by simpa using hkv.2)
    rw [List.mem_toFinset, List.mem_filter]
    exact ⟨hall kv.1 hedge, by simpa using hedge⟩
  rw [hset]

/-- Conversely, equal counters force all predecessors into the list. -/
theorem all_of_cntPred_eq_cntIn (g : Graph) (x : String) (result : List String)
    (hnd : result.Nodup) (hk : (Smap.keys g.edges).Nodup)
    (heq : cntPred g x result = cntIn g x) :
    ∀ u, g.EdgeRel u x → u ∈ result := by
  intro u hu
  rw [cntPred_eq_card g x result hnd, cntIn_eq_card g x hk] at heq
  have hcards : ((g.edges.filter (fun kv => decide (x ∈ kv.2))).map Prod.fst).toFinset.card ≤
      (result.filter (fun u => decide (g.EdgeRel u x))).toFinset.card := by omega
  have hset := Finset.eq_of_subset_of_card_le (predFinset_subset g x result) hcards
  obtain ⟨tos, htos, hx⟩ := entry_of_edgeRel g u x hu
  have humem : u ∈ ((g.edges.filter (fun kv => decide (x ∈ kv.2))).map Prod.fst).toFinset := by
    rw [List.mem_toFinset, List.mem_map]
    exact ⟨(u, tos), List.mem_filter.mpr ⟨htos, by simpa using hx⟩, rfl⟩
  rw [← hset, List.mem_toFinset, List.mem_filter] at humem
  exact humem.1

/-- An edge into `x` makes the in-degree positive. -/
theorem cntIn_pos (g : Graph) (u x : String) (h : g.EdgeRel u x) : 0 < cntIn g x := by
  obtain ⟨tos, htos, hx⟩ := entry_of_edgeRel g u x h
  unfold cntIn
  have : (u, tos) ∈ g.edges.filter (fun kv => decide (x ∈ kv.2)) :=
    List.mem_filter.mpr ⟨htos, by simpa using hx⟩
  have := List.length_pos.mpr (List.ne_nil_of_mem this)
  omega

/-- A positive in-degree exhibits an edge (keys duplicate-free). -/
theorem exists_edge_of_cntIn_pos (g : Graph) (x : String)
    (hk : (Smap.keys g.edges).Nodup) (h : cntIn g x ≠ 0) :
    ∃ u, g.EdgeRel u x := by
  unfold cntIn at h
  have hne : g.edges.filter (fun kv => decide (x ∈ kv.2)) ≠ [] := by
    intro hnil
    rw [hnil] at h
    simp at h
  obtain ⟨kv, hkv⟩ := List.exists_mem_of_ne_nil _ hne
  rw [List.mem_filter] at hkv
  exact ⟨kv.1, edgeRel_of_entry g hk kv hkv.1 x (by simpa using hkv.2)⟩



/-- Lookup after the node-initialisation fold of `topological_sort`. -/
theorem indeg0_lookup (ns : List (String × GraphNode)) (m : Smap Int) (x : String) :
    Smap.lookup x (ns.foldl (fun m kv => Smap.insert kv.1 0 m) m) =
      if x ∈ ns.map Prod.fst then some 0 else Smap.lookup x m := by
  induction ns generalizing m with
  | nil => simp
  | cons kv rest ih =>
    simp only [List.foldl_cons]
    rw [ih]
    by_cases hx : x ∈ rest.map Prod.fst
    · rw [if_pos hx, if_pos (by simp [hx])]
    · rw [if_neg hx]
      by_cases hxk : x = kv.1
      · subst hxk
        rw [if_pos (by simp), Smap.lookup_insert_self]
      · rw [if_neg (by simp [hxk, hx]), Smap.lookup_insert_ne x kv.1 _ m hxk]

/-- Lookup after bumping every member of a duplicate-free destination
list by one. -/
theorem bump_fold_lookup (tos : List String) (hnd : tos.Nodup) (m : Smap Int) (x : String) :
    Smap.lookup x (tos.foldl (fun m t => Smap.insert t ((Smap.lookup t m).getD 0 + 1) m) m) =
      if x ∈ tos then some ((Smap.lookup x m).getD 0 + 1) else Smap.lookup x m := by
  induction tos generalizing m with
  | nil => simp
  | cons t ts ih =>
    obtain ⟨hnt, hnd2⟩ := List.nodup_cons.mp hnd
    simp only [List.foldl_cons]
    rw [ih hnd2]
    by_cases hx : x ∈ ts
    · have hxt : x ≠ t := fun h => hnt (h ▸ hx)
      rw [if_pos hx, if_pos (List.mem_cons_of_mem t hx),
        Smap.lookup_insert_ne x t _ m hxt]
    · rw [if_neg hx]
      by_cases hxt : x = t
      · subst hxt
        rw [if_pos (List.mem_cons_self x ts), Smap.lookup_insert_self]
      · rw [if_neg (fun h => (List.mem_cons.mp h).elim hxt hx),
          Smap.lookup_insert_ne x t _ m hxt]

/-- Number of processed edge entries pointing at `x`. -/
def cntList (es : List (String × List String)) (x : String) : Int :=
  ((es.filter (fun kv => decide (x ∈ kv.2))).length : Int)

/-- Lookup after the edge fold of `buildIndeg`: each entry containing
`x` bumps it once. -/
theorem edges_fold_lookup (es : List (String × List String))
    (hnd : ∀ kv ∈ es, kv.2.Nodup) (m : Smap Int) (x : String) :
    Smap.lookup x (es.foldl
        (fun m kv => kv.2.foldl
          (fun m t => Smap.insert t ((Smap.lookup t m).getD 0 + 1) m) m) m) =
      if cntList es x = 0 then Smap.lookup x m
      else some ((Smap.lookup x m).getD 0 + cntList es x) := by
  induction es generalizing m with
  | nil => simp [cntList]
  | cons kv es ih =>
    simp only [List.foldl_cons]
    rw [ih (fun p hp => hnd p (List.mem_cons_of_mem kv hp))]
    have hstep := bump_fold_lookup kv.2 (hnd kv (List.mem_cons_self kv es)) m x
    have hcnt : cntList (kv :: es) x =
        cntList es x + (if x ∈ kv.2 then 1 else 0) := by
      unfold cntList
      rw [List.filter_cons]
      by_cases h : x ∈ kv.2
      · rw [if_pos (by simpa using h), if_pos h]
        simp only [List.length_cons]
        push_cast
        ring
      · rw [if_neg (by simpa using h), if_neg h]
        simp
    have hcnt_nonneg : 0 ≤ cntList es x := by
      unfold cntList
      positivity
    by_cases hx : x ∈ kv.2
    · rw [if_pos hx] at hstep
      by_cases hz : cntList es x = 0
      · rw [if_pos hz, hstep]
        have hne : cntList (kv :: es) x ≠ 0 := by
          rw [hcnt, hz]
          simp [hx]
        rw [if_neg hne, hcnt, hz]
        simp [hx]
      · rw [if_neg hz, hstep]
        have hne : cntList (kv :: es) x ≠ 0 := by
          rw [hcnt]
          simp only [if_pos hx]
          omega
        rw [if_neg hne]
        simp only [Option.getD_some]
        rw [hcnt]
        simp only [if_pos hx]
        congr 1
        ring
    · rw [if_neg hx] at hstep
      rw [hstep, hcnt]
      simp [hx]

/-- The in-degree map of `topological_sort`: nodes and edge destinations
are present, holding exactly the in-degree. -/
theorem buildIndeg_lookup (g : Graph) (hnd : ∀ kv ∈ g.edges, kv.2.Nodup) (x : String) :
    Smap.lookup x (buildIndeg g) =
      if x ∈ Smap.keys g.nodes ∨ cntIn g x ≠ 0 then some (cntIn g x) else none := by
  unfold buildIndeg
  rw [edges_fold_lookup g.edges hnd _ x, indeg0_lookup g.nodes [] x]
  have hcnt : cntList g.edges x = cntIn g x := rfl
  rw [hcnt]
  by_cases hz : cntIn g x = 0
  · rw [if_pos hz, hz]
    by_cases hn : x ∈ g.nodes.map Prod.fst
    · rw [if_pos hn]
      simp [Smap.keys, hn]
    · rw [if_neg hn]
      simp [Smap.keys, hn, Smap.lookup]
  · rw [if_neg hz, if_pos (Or.inr hz)]
    by_cases hn : x ∈ g.nodes.map Prod.fst
    · rw [if_pos hn]
      simp
    · rw [if_neg hn]
      simp [Smap.lookup]

/-- Lookup after `processNeighbors`: every member of the duplicate-free
neighbour list is decremented once. -/
theorem processNeighbors_lookup (ns : List String) (hnd : ns.Nodup)
    (indeg : Smap Int) (queue : List String) (x : String) :
    Smap.lookup x (processNeighbors ns indeg queue).1 =
      if x ∈ ns then some ((Smap.lookup x indeg).getD 0 - 1) else Smap.lookup x indeg := by
  induction ns generalizing indeg queue with
  | nil => simp [processNeighbors]
  | cons n ts ih =>
    obtain ⟨hnt, hnd2⟩ := List.nodup_cons.mp hnd
    simp only [processNeighbors]
    rw [ih hnd2]
    by_cases hx : x ∈ ts
    · have hxt : x ≠ n := fun h => hnt (h ▸ hx)
      rw [if_pos hx, if_pos (List.mem_cons_of_mem n hx),
        Smap.lookup_insert_ne x n _ indeg hxt]
    · rw [if_neg hx]
      by_cases hxt : x = n
      · subst hxt
        rw [if_pos (List.mem_cons_self x ts), Smap.lookup_insert_self]
      · rw [if_neg (fun h => (List.mem_cons.mp h).elim hxt hx),
          Smap.lookup_insert_ne x n _ indeg hxt]

/-- The queue produced by `processNeighbors`: the old queue followed by
the neighbours whose degree just reached zero, in adjacency order. -/
theorem processNeighbors_queue (ns : List String) (hnd : ns.Nodup)
    (indeg : Smap Int) (queue : List String) :
    (processNeighbors ns indeg queue).2 =
      queue ++ ns.filter (fun n => decide ((Smap.lookup n indeg).getD 0 - 1 = 0)) := by
  induction ns generalizing indeg queue with
  | nil => simp [processNeighbors]
  | cons n ts ih =>
    obtain ⟨hnt, hnd2⟩ := List.nodup_cons.mp hnd
    simp only [processNeighbors]
    rw [ih hnd2]
    have hfilter : ts.filter
        (fun t => decide ((Smap.lookup t (Smap.insert n ((Smap.lookup n indeg).getD 0 - 1) indeg)).getD 0 - 1 = 0)) =
        ts.filter (fun t => decide ((Smap.lookup t indeg).getD 0 - 1 = 0)) := by
      apply List.filter_congr
      intro t ht
      have htn : t ≠ n := fun h => hnt (h ▸ ht)
      rw [Smap.lookup_insert_ne t n _ indeg htn]
    rw [hfilter, List.filter_cons]
    by_cases hd : (Smap.lookup n indeg).getD 0 - 1 = 0
    · rw [if_pos hd, if_pos (by simpa using hd)]
      simp [List.append_assoc]
    · rw [if_neg hd, if_neg (by simpa using hd)]

/-- `processNeighbors` never changes the key sequence when all processed
neighbours are already present (sorted map). -/
theorem processNeighbors_keys (ns : List String) (indeg : Smap Int) (queue : List String)
    (hs : Smap.Sorted indeg) (hsub : ∀ n ∈ ns, n ∈ Smap.keys indeg) :
    Smap.keys (processNeighbors ns indeg queue).1 = Smap.keys indeg := by
  induction ns generalizing indeg queue with
  | nil => simp [processNeighbors]
  | cons n ts ih =>
    simp only [processNeighbors]
    have hkeys := Smap.keys_insert_of_mem n ((Smap.lookup n indeg).getD 0 - 1) indeg hs
      (hsub n (List.mem_cons_self n ts))
    rw [ih _ _ (Smap.sorted_insert _ _ _ hs)
      (fun t ht => hkeys ▸ hsub t (List.mem_cons_of_mem n ht))]
    exact hkeys



theorem adj_nodup (g : Graph) (hv : ∀ kv ∈ g.edges, kv.2.Pairwise (· < ·)) (v : String) :
    (g.adj v).Nodup := by
  unfold adj
  cases hlk : Smap.lookup v g.edges with
  | none => simp
  | some tos =>
    simp only [Option.getD_some]
    exact List.Pairwise.imp ne_of_lt (hv (v, tos) (Smap.lookup_mem v g.edges tos hlk))

theorem mem_adj_iff_edgeRel (g : Graph) (v x : String) : x ∈ g.adj v ↔ g.EdgeRel v x :=
  Iff.rfl

/-- The combined loop invariant of `topological_sort`.
Components: queue/result distinctness; queue, result and all edge
destinations lie among the in-degree keys; each stored degree is the
in-degree minus the emitted predecessors; every predecessor of a queued
or emitted vertex is already emitted; emitted vertices appear after all
their predecessors; and a vertex whose predecessors are all emitted is
queued or emitted. -/
def KahnInv (g : Graph) (indeg : Smap Int) (queue result : List String) : Prop :=
  (queue ++ result).Nodup ∧
  (∀ x ∈ queue, x ∈ Smap.keys indeg) ∧
  (∀ x ∈ result, x ∈ Smap.keys indeg) ∧
  (∀ u x, g.EdgeRel u x → x ∈ Smap.keys indeg) ∧
  (∀ x d, Smap.lookup x indeg = some d → d = cntIn g x - cntPred g x result) ∧
  (∀ u x, g.EdgeRel u x → (x ∈ queue ∨ x ∈ result) → u ∈ result) ∧
  (∀ u x, g.EdgeRel u x → ∀ j, result.get? j = some x → ∃ i < j, result.get? i = some u) ∧
  (∀ x ∈ Smap.keys indeg, (∀ u, g.EdgeRel u x → u ∈ result) → x ∈ queue ∨ x ∈ result)

theorem kahnLoop_master (g : Graph) (HW : WellFormed g)
    (indeg : { m : Smap Int // Smap.Sorted m }) (queue result : List String) :
    KahnInv g indeg.val queue result →
    (∀ u x, g.EdgeRel u x → ∀ j, (kahnLoop g.edges indeg queue result).get? j = some x →
        ∃ i < j, (kahnLoop g.edges indeg queue result).get? i = some u) ∧
    (∀ x ∈ Smap.keys indeg.val,
        (∀ u, g.EdgeRel u x → u ∈ kahnLoop g.edges indeg queue result) →
        x ∈ kahnLoop g.edges indeg queue result) ∧
    (∀ x ∈ result, x ∈ kahnLoop g.edges indeg queue result) := by
  obtain ⟨HWn, HWe, HWv, HWs⟩ := HW
  have hek : (Smap.keys g.edges).Nodup := Smap.Sorted.nodup_keys g.edges HWe
  induction indeg, queue, result using kahnLoop.induct g.edges with
  | case1 indeg result =>
    rintro ⟨hI0, hI1, hI2, hI3, hI4, hI5, hI6, hI7⟩
    simp only [kahnLoop]
    refine ⟨hI6, ?_, fun x hx => hx⟩
    intro x hxk hall
    rcases hI7 x hxk hall with h | h
    · simp at h
    · exact h
  | case2 indeg result node rest pr ih =>
    rintro ⟨hI0, hI1, hI2, hI3, hI4, hI5, hI6, hI7⟩
    have hA : (Smap.lookup node g.edges).getD [] = g.adj node := rfl
    have hAnd : (g.adj node).Nodup := adj_nodup g HWv node
    set A := g.adj node with hAdef
    -- decompose the distinctness hypothesis
    have hI0' : (node :: (rest ++ result)).Nodup := by
      simpa using hI0
    obtain ⟨hnode_notin, hrr⟩ := List.nodup_cons.mp hI0'
    have hnode_rest : node ∉ rest := fun h => hnode_notin (List.mem_append_left _ h)
    have hnode_result : node ∉ result := fun h => hnode_notin (List.mem_append_right _ h)
    have hrest_nd : rest.Nodup := (List.nodup_append.mp hrr).1
    have hresult_nd : result.Nodup := (List.nodup_append.mp hrr).2.1
    have hdisj : rest.Disjoint result := (List.nodup_append.mp hrr).2.2
    -- effect of processNeighbors
    have hq : pr.2 = rest ++
        A.filter (fun n => decide ((Smap.lookup n indeg.val).getD 0 - 1 = 0)) := by
      show (processNeighbors ((Smap.lookup node g.edges).getD []) indeg.val rest).2 = _
      rw [hA]
      exact processNeighbors_queue A hAnd indeg.val rest
    set newly := A.filter (fun n => decide ((Smap.lookup n indeg.val).getD 0 - 1 = 0))
      with hnewdef
    have hlk : ∀ x, Smap.lookup x pr.1 =
        if x ∈ A then some ((Smap.lookup x indeg.val).getD 0 - 1)
        else Smap.lookup x indeg.val := by
      intro x
      show Smap.lookup x
        (processNeighbors ((Smap.lookup node g.edges).getD []) indeg.val rest).1 = _
      rw [hA]
      exact processNeighbors_lookup A hAnd indeg.val rest x
    have hkeys : Smap.keys pr.1 = Smap.keys indeg.val := by
      show Smap.keys
        (processNeighbors ((Smap.lookup node g.edges).getD []) indeg.val rest).1 = _
      rw [hA]
      exact processNeighbors_keys A indeg.val rest indeg.prop
        (fun n hn => hI3 node n ((mem_adj_iff_edgeRel g node n).mp hn))
    -- members of A have a stored degree
    have hAdeg : ∀ x ∈ A, ∃ d, Smap.lookup x indeg.val = some d := by
      intro x hx
      have hxk := hI3 node x ((mem_adj_iff_edgeRel g node x).mp hx)
      have := (Smap_lookup_isSome_iff_mem_keys x indeg.val).mpr hxk
      exact Option.isSome_iff_exists.mp this
    -- fresh vertices: they were neither queued nor emitted
    have hnewly_deg : ∀ y ∈ newly, Smap.lookup y indeg.val = some 1 := by
      intro y hy
      rw [hnewdef, List.mem_filter] at hy
      obtain ⟨hyA, hyd⟩ := hy
      obtain ⟨d, hd⟩ := hAdeg y hyA
      rw [hd] at hyd
      simp only [Option.getD_some, decide_eq_true_eq] at hyd
      rw [hd]
      congr 1
      omega
    have hfresh : ∀ y ∈ newly, y ∉ node :: rest ∧ y ∉ result := by
      intro y hy
      have hd := hnewly_deg y hy
      have hdval := hI4 y 1 hd
      have hkey : ∀ (hqr : y ∈ node :: rest ∨ y ∈ result), False := by
        intro hqr
        have hall : ∀ u, g.EdgeRel u y → u ∈ result := fun u hu => hI5 u y hu hqr
        have := cntPred_eq_cntIn_of_all g y result hresult_nd hek hall
        omega
      exact ⟨fun h => hkey (Or.inl h), fun h => hkey (Or.inr h)⟩
    have hnew_nd : newly.Nodup := hAnd.filter _
    have hI0next : (pr.2 ++ (result ++ [node])).Nodup := by
      rw [hq]
      apply List.nodup_append.mpr
      refine ⟨List.nodup_append.mpr ⟨hrest_nd, hnew_nd, ?_⟩,
        List.nodup_append.mpr ⟨hresult_nd, List.nodup_singleton node, ?_⟩, ?_⟩
      · intro a ha hb
        exact (hfresh a hb).1 (List.mem_cons_of_mem node ha)
      · intro a ha hb
        rw [List.mem_singleton] at hb
        subst hb
        exact hnode_result ha
      · intro a ha hb
        rcases List.mem_append.mp ha with h1 | h1
        · rcases List.mem_append.mp hb with h2 | h2
          · exact hdisj h1 h2
          · rw [List.mem_singleton] at h2
            subst h2
            exact hnode_rest h1
        · rcases List.mem_append.mp hb with h2 | h2
          · exact (hfresh a h1).2 h2
          · rw [List.mem_singleton] at h2
            subst h2
            exact (hfresh a h1).1 (List.mem_cons_self _ _)
    have hresnode_nd : (result ++ [node]).Nodup := (List.nodup_append.mp hI0next).2.1
    have hedge_node_iff : ∀ x, x ∈ A ↔ g.EdgeRel node x :=
      fun x => mem_adj_iff_edgeRel g node x
    have hI1n : ∀ x ∈ pr.2, x ∈ Smap.keys pr.1 := by
      intro x hx
      rw [hkeys]
      rw [hq] at hx
      rcases List.mem_append.mp hx with h | h
      · exact hI1 x (List.mem_cons_of_mem node h)
      · rw [hnewdef, List.mem_filter] at h
        exact hI3 node x ((hedge_node_iff x).mp h.1)
    have hI2n : ∀ x ∈ result ++ [node], x ∈ Smap.keys pr.1 := by
      intro x hx
      rw [hkeys]
      rcases List.mem_append.mp hx with h | h
      · exact hI2 x h
      · rw [List.mem_singleton] at h
        subst h
        exact hI1 x (List.mem_cons_self _ _)
    have hI3n : ∀ u x, g.EdgeRel u x → x ∈ Smap.keys pr.1 := by
      intro u x h
      rw [hkeys]
      exact hI3 u x h
    have hI4n : ∀ x d, Smap.lookup x pr.1 = some d →
        d = cntIn g x - cntPred g x (result ++ [node]) := by
      intro x d hx
      rw [hlk x] at hx
      rw [cntPred_append_singleton]
      by_cases hxA : x ∈ A
      · rw [if_pos hxA] at hx
        obtain ⟨d0, hd0⟩ := hAdeg x hxA
        rw [hd0] at hx
        simp only [Option.getD_some] at hx
        obtain rfl : d0 - 1 = d := by simpa using hx
        have := hI4 x d0 hd0
        rw [if_pos ((hedge_node_iff x).mp hxA)]
        omega
      · rw [if_neg hxA] at hx
        have := hI4 x d hx
        rw [if_neg (fun h => hxA ((hedge_node_iff x).mpr h))]
        omega
    have hI5n : ∀ u x, g.EdgeRel u x → (x ∈ pr.2 ∨ x ∈ result ++ [node]) →
        u ∈ result ++ [node] := by
      intro u x hu hx
      rcases hx with hx | hx
      · rw [hq] at hx
        rcases List.mem_append.mp hx with h | h
        · exact List.mem_append_left _ (hI5 u x hu (Or.inl (List.mem_cons_of_mem node h)))
        · have hxA : x ∈ A := by
            rw [hnewdef, List.mem_filter] at h
            exact h.1
          have hd := hnewly_deg x h
          have hdval := hI4 x 1 hd
          have hstep := cntPred_append_singleton g x result node
          rw [if_pos ((hedge_node_iff x).mp hxA)] at hstep
          have hfull : cntPred g x (result ++ [node]) = cntIn g x := by omega
          exact all_of_cntPred_eq_cntIn g x (result ++ [node]) hresnode_nd hek hfull u hu
      · rcases List.mem_append.mp hx with h | h
        · exact List.mem_append_left _ (hI5 u x hu (Or.inr h))
        · rw [List.mem_singleton] at h
          subst h
          exact List.mem_append_left _ (hI5 u x hu (Or.inl (List.mem_cons_self _ _)))
    have hI6n : ∀ u x, g.EdgeRel u x → ∀ j, (result ++ [node]).get? j = some x →
        ∃ i < j, (result ++ [node]).get? i = some u := by
      intro u x hu j hj
      rcases lt_trichotomy j result.length with hlt | heq | hgt
      · rw [List.get?_append hlt] at hj
        obtain ⟨i, hij, hi⟩ := hI6 u x hu j hj
        exact ⟨i, hij, by rw [List.get?_append (lt_trans hij hlt)]; exact hi⟩
      · subst heq
        rw [List.get?_concat_length] at hj
        obtain rfl : node = x := by simpa using hj
        have humem : u ∈ result := hI5 u node hu (Or.inl (List.mem_cons_self _ _))
        obtain ⟨i, hi⟩ := List.mem_iff_get?.mp humem
        have hilt : i < result.length := by
          by_contra hge
          rw [List.get?_eq_none.mpr (le_of_not_lt hge)] at hi
          exact Option.noConfusion hi
        exact ⟨i, hilt, by rw [List.get?_append hilt]; exact hi⟩
      · exfalso
        have hnone : (result ++ [node]).get? j = none := List.get?_eq_none.mpr (by
          rw [List.length_append, List.length_singleton]
          omega)
        rw [hnone] at hj
        exact Option.noConfusion hj
    have hI7n : ∀ x ∈ Smap.keys pr.1, (∀ u, g.EdgeRel u x → u ∈ result ++ [node]) →
        x ∈ pr.2 ∨ x ∈ result ++ [node] := by
      intro x hxk hall
      rw [hkeys] at hxk
      by_cases hallres : ∀ u, g.EdgeRel u x → u ∈ result
      · rcases hI7 x hxk hallres with h | h
        · rcases List.mem_cons.mp h with rfl | h2
          · exact Or.inr (List.mem_append_right _ (List.mem_singleton.mpr rfl))
          · refine Or.inl ?_
            rw [hq]
            exact List.mem_append_left _ h2
        · exact Or.inr (List.mem_append_left _ h)
      · push_neg at hallres
        obtain ⟨u0, hu0e, hu0n⟩ := hallres
        have hu0mem := hall u0 hu0e
        have hu0node : u0 = node := by
          rcases List.mem_append.mp hu0mem with h | h
          · exact absurd h hu0n
          · exact List.mem_singleton.mp h
        rw [hu0node] at hu0e
        have hxA : x ∈ A := (hedge_node_iff x).mpr hu0e
        obtain ⟨d0, hd0⟩ := hAdeg x hxA
        have hd0v := hI4 x d0 hd0
        have hcnt_full := cntPred_eq_cntIn_of_all g x (result ++ [node]) hresnode_nd hek hall
        have hstep := cntPred_append_singleton g x result node
        rw [if_pos ((hedge_node_iff x).mp hxA)] at hstep
        have hd01 : d0 = 1 := by omega
        refine Or.inl ?_
        rw [hq]
        apply List.mem_append_right
        rw [hnewdef, List.mem_filter]
        refine ⟨hxA, ?_⟩
        rw [hd0]
        simp [hd01]
    obtain ⟨IH1, IH2, IH3⟩ := ih ⟨hI0next, hI1n, hI2n, hI3n, hI4n, hI5n, hI6n, hI7n⟩
    simp only [kahnLoop]
    refine ⟨IH1, ?_, ?_⟩
    · intro x hxk hall
      exact IH2 x (by rw [hkeys]; exact hxk) hall
    · intro x hx
      exact IH3 x (List.mem_append_left _ hx)


theorem List_indexOf_le_of_get? (l : List String) (u : String) :
    ∀ (i : ℕ), l.get? i = some u → l.indexOf u ≤ i := by
  induction l with
  | nil => intro i h; simp at h
  | cons a l ih =>
    intro i h
    cases i with
    | zero =>
      obtain rfl : a = u := by simpa using h
      simp [List.indexOf_cons_self]
    | succ i =>
      by_cases hau : a = u
      · rw [List.indexOf_cons_eq l hau]
        omega
      · rw [List.indexOf_cons_ne l hau]
        have := ih i (by simpa using h)
        omega


theorem mem_queue0 (m : Smap Int) (hs : Smap.Sorted m) (x : String) :
    x ∈ (m.filter (fun kv => decide (kv.2 = 0))).map Prod.fst ↔
      Smap.lookup x m = some 0 := by
  constructor
  · intro h
    obtain ⟨kv, hkv, rfl⟩ := List.mem_map.mp h
    rw [List.mem_filter] at hkv
    have hl := Smap_lookup_of_mem_nodup kv.1 kv.2 m (Smap.Sorted.nodup_keys m hs) hkv.1
    have h0 : kv.2 = 0 := by simpa using hkv.2
    rw [hl, h0]
  · intro h
    exact List.mem_map.mpr ⟨(x, 0), List.mem_filter.mpr ⟨Smap.lookup_mem x m 0 h, by simp⟩, rfl⟩

theorem queue0_nodup (m : Smap Int) (hs : Smap.Sorted m) :
    ((m.filter (fun kv => decide (kv.2 = 0))).map Prod.fst).Nodup :=
  List.Nodup.sublist ((List.filter_sublist m).map Prod.fst) (Smap.Sorted.nodup_keys m hs)

theorem nodes_keys_subset_indeg (g : Graph) (hnd : ∀ kv ∈ g.edges, kv.2.Nodup) (x : String)
    (hx : x ∈ Smap.keys g.nodes) : x ∈ Smap.keys (buildIndeg g) := by
  rw [← Smap_lookup_isSome_iff_mem_keys, buildIndeg_lookup g hnd x, if_pos (Or.inl hx)]
  rfl

theorem dst_mem_keys_indeg (g : Graph) (hnd : ∀ kv ∈ g.edges, kv.2.Nodup) (u x : String)
    (hux : g.EdgeRel u x) : x ∈ Smap.keys (buildIndeg g) := by
  rw [← Smap_lookup_isSome_iff_mem_keys, buildIndeg_lookup g hnd x,
    if_pos (Or.inr (by have := cntIn_pos g u x hux; omega))]
  rfl

theorem kahnInv_init (g : Graph) (HW : WellFormed g)
    (hnd : ∀ kv ∈ g.edges, kv.2.Nodup) :
    KahnInv g (buildIndeg g)
      (((buildIndeg g).filter (fun kv => decide (kv.2 = 0))).map Prod.fst) [] := by
  have hek : (Smap.keys g.edges).Nodup := Smap.Sorted.nodup_keys g.edges HW.2.1
  have hs := buildIndeg_sorted g
  have hlk := buildIndeg_lookup g hnd
  refine ⟨?_, ?_, ?_, ?_, ?_, ?_, ?_, ?_⟩
  · rw [List.append_nil]
    exact queue0_nodup _ hs
  · intro x hx
    rw [mem_queue0 _ hs] at hx
    rw [← Smap_lookup_isSome_iff_mem_keys, hx]
    rfl
  · intro x hx
    simp at hx
  · intro u x hux
    exact dst_mem_keys_indeg g hnd u x hux
  · intro x d hd
    rw [hlk x] at hd
    by_cases hc : x ∈ Smap.keys g.nodes ∨ cntIn g x ≠ 0
    · rw [if_pos hc] at hd
      obtain rfl : cntIn g x = d := by simpa using hd
      simp [cntPred_nil]
    · rw [if_neg hc] at hd
      exact Option.noConfusion hd
  · intro u x hux hx
    rcases hx with hx | hx
    · rw [mem_queue0 _ hs, hlk x] at hx
      by_cases hc : x ∈ Smap.keys g.nodes ∨ cntIn g x ≠ 0
      · rw [if_pos hc] at hx
        have h0 : cntIn g x = 0 := by simpa using hx
        have := cntIn_pos g u x hux
        omega
      · rw [if_neg hc] at hx
        exact Option.noConfusion hx
    · simp at hx
  · intro u x hux j hj
    simp at hj
  · intro x hxk hall
    have hc0 : cntIn g x = 0 := by
      by_contra hne
      obtain ⟨u, hu⟩ := exists_edge_of_cntIn_pos g x hek hne
      exact absurd (hall u hu) (List.not_mem_nil u)
    left
    rw [mem_queue0 _ hs, hlk x]
    rw [← Smap_lookup_isSome_iff_mem_keys, hlk x] at hxk
    by_cases hc : x ∈ Smap.keys g.nodes ∨ cntIn g x ≠ 0
    · rw [if_pos hc, hc0]
    · rw [if_neg hc] at hxk
      simp at hxk

/-- The two shape facts of `topological_sort`: edge sources precede
their destinations, and a vertex whose predecessors all appear also
appears. -/
theorem topological_sort_props (g : Graph) (HW : WellFormed g) :
    (∀ u x, g.EdgeRel u x → ∀ j, g.topological_sort.get? j = some x →
        ∃ i < j, g.topological_sort.get? i = some u) ∧
    (∀ x ∈ Smap.keys (buildIndeg g),
        (∀ u, g.EdgeRel u x → u ∈ g.topological_sort) → x ∈ g.topological_sort) := by
  have hnd : ∀ kv ∈ g.edges, kv.2.Nodup :=
    fun kv hkv => List.Pairwise.imp ne_of_lt (HW.2.2.1 kv hkv)
  have hm := kahnLoop_master g HW ⟨buildIndeg g, buildIndeg_sorted g⟩
    (((buildIndeg g).filter (fun kv => decide (kv.2 = 0))).map Prod.fst) []
    (kahnInv_init g HW hnd)
  exact ⟨hm.1, hm.2.1⟩

/-- On an acyclic graph Kahn drains everything: every vertex known to
the in-degree map is emitted. -/
theorem topological_sort_complete (g : Graph) (HW : WellFormed g)
    (hnc : ¬ HasCycleProp g) :
    ∀ x ∈ Smap.keys (buildIndeg g), x ∈ g.topological_sort := by
  by_contra hno
  push_neg at hno
  obtain ⟨x0, hx0k, hx0n⟩ := hno
  have hnd : ∀ kv ∈ g.edges, kv.2.Nodup :=
    fun kv hkv => List.Pairwise.imp ne_of_lt (HW.2.2.1 kv hkv)
  have hS : x0 ∈ (Smap.keys (buildIndeg g)).filter
      (fun y => decide (y ∉ g.topological_sort)) :=
    List.mem_filter.mpr ⟨hx0k, by simpa using hx0n⟩
  obtain ⟨m, hmS, hnopred⟩ := exists_source g hnc _ (List.ne_nil_of_mem hS)
  rw [List.mem_filter] at hmS
  obtain ⟨hmk, hmn⟩ := hmS
  have hmn2 : m ∉ g.topological_sort := by simpa using hmn
  have hall : ∀ u, g.EdgeRel u m → u ∈ g.topological_sort := by
    intro u hu
    by_contra hun
    have huk : u ∈ Smap.keys (buildIndeg g) :=
      nodes_keys_subset_indeg g hnd u (HW.2.2.2 u m hu)
    exact hnopred u (List.mem_filter.mpr ⟨huk, by simpa using hun⟩) hu
  exact hmn2 ((topological_sort_props g HW).2 m hmk hall)

/-- The claim-level order statement: on an acyclic well-formed graph,
every edge source appears in the output strictly before its
destination. -/
theorem topological_sort_order (g : Graph) (HW : WellFormed g)
    (hnc : ¬ HasCycleProp g) (a b : String) (hab : g.EdgeRel a b) :
    a ∈ g.topological_sort ∧ b ∈ g.topological_sort ∧
      g.topological_sort.indexOf a < g.topological_sort.indexOf b := by
  have hnd : ∀ kv ∈ g.edges, kv.2.Nodup :=
    fun kv hkv => List.Pairwise.imp ne_of_lt (HW.2.2.1 kv hkv)
  have hbmem : b ∈ g.topological_sort :=
    topological_sort_complete g HW hnc b (dst_mem_keys_indeg g hnd a b hab)
  have hj := List.indexOf_get? hbmem
  obtain ⟨i, hij, hi⟩ := (topological_sort_props g HW).1 a b hab _ hj
  have hamem : a ∈ g.topological_sort := by
    have := List.get?_eq_some.mp hi
    obtain ⟨hlt, hget⟩ := this
    exact hget ▸ List.get_mem _ _ _
  refine ⟨hamem, hbmem, ?_⟩
  have := List_indexOf_le_of_get? g.topological_sort a i hi
  omega


end Graph

/-! ## Environment (interpreter.cpp lines 65-99)

A frame is a `std::map<std::string, IrisValuePtr>`; the chain of
`shared_ptr` parents is a list with the innermost frame first and the
global frame last.  The C++ code only pushes and pops frames linearly,
so the list is an exact model. -/

abbrev Frame := Smap IrisValue

/-- `Environment::get`: walk the chain, `nullptr` (`none`) when absent. -/
def envGet : List Frame → String → Option IrisValue
  | [], _ => none
  | f :: rest, n =>
    match Smap.lookup n f with
    | some v => some v
    | none => envGet rest n

/-- `Environment::exists`. -/
def envExists : List Frame → String → Bool
  | [], _ => false
  | f :: rest, n => (Smap.lookup n f).isSome || envExists rest n

/-- `Environment::set`: rebind in this frame if present, else in the
nearest ancestor that has the name, else define here. -/
def envSet : List Frame → String → IrisValue → List Frame
  | [], _, _ => []
  | f :: rest, n, v =>
    if (Smap.lookup n f).isSome then Smap.insert n v f :: rest
    else if envExists rest n then f :: envSet rest n v
    else Smap.insert n v f :: rest

/-- `Environment::define`: always into the innermost frame. -/
def envDefine : List Frame → String → IrisValue → List Frame
  | [], _, _ => []
  | f :: rest, n, v => Smap.insert n v f :: rest

/-- `m_global_env->define`: into the last (global) frame. -/
def envDefineGlobal : List Frame → String → IrisValue → List Frame
  | [], _, _ => []
  | [g], n, v => [Smap.insert n v g]
  | f :: rest, n, v => f :: envDefineGlobal rest n v

/-! ## AST (lang/ast.hpp) -/

/-- Expression nodes.  The C++ AST has no nil literal (the parser never
produces one: `nil` in primary position is a parse error). -/
inductive Expr : Type where
  | strLit (value : String)
  | numLit (value : ℚ) (isInteger : Bool)
  | boolLit (value : Bool)
  | symbol (name : String)
  | ident (name : String)
  | arrayLit (elements : List Expr)
  | hashLit (pairs : List (Expr × Expr))
  | binop (op : String) (left right : Expr)
  | unop (op : String) (operand : Expr)
  | call (name : String) (args : List Expr)
  | member (object : Expr) (name : String)
  | indexAcc (object : Expr) (index : Expr)

/-- Statement nodes.  Block bodies are statement lists (the C++
`Block` wrapper adds nothing else). -/
inductive Stmt : Type where
  | assignment (name : String) (value : Expr)
  | projectBlock (name : String) (body : List Stmt)
  | targetBlock (targetType : String) (name : String) (body : List Stmt)
  | compilerBlock (body : List Stmt)
  | dependencyBlock (name : String) (body : List Stmt)
  | taskBlock (name : String) (body : List Stmt)
  | ifStmt (condition : Expr) (thenBlock : List Stmt) (elseBlock : Option (List Stmt))
  | unlessStmt (condition : Expr) (body : List Stmt)
  | forLoop (var : String) (iterable : Expr) (body : List Stmt)
  | functionDef (name : String) (params : List String) (body : List Stmt)
  | exprStmt (expression : Expr)
  | returnStmt (value : Option Expr)

/-! ## Interpreter (interpreter.cpp) -/

/-- An entry of `m_native_functions`.  Host built-ins perform I/O and
are outside the pure embedding (calling one yields
`EvalErr.hostBuiltin`); user functions and tasks store their AST. -/
inductive FnDef : Type where
  | native (name : String)
  | user (params : List String) (body : List Stmt)
  | task (body : List Stmt)

/-- How an evaluation step can fail to produce a value. -/
inductive EvalErr : Type where
  | runtimeError (msg : String)   -- `throw std::runtime_error(msg)`
  | thrown (v : IrisValue)        -- `throw eval_expression(...)` from a return statement
  | hostBuiltin (name : String)   -- invoking a host (I/O) built-in: outside the pure model
  | ub                            -- C++ undefined behaviour (unguarded `%` by zero)
  | outOfFuel                     -- model fuel for user-function recursion exhausted

/-- The names registered by `register_builtins`, in registration order. -/
def nativeNames : List String :=
  ["glob", "find_package", "find_library", "print", "error", "warning", "shell",
   "run", "env", "platform", "arch", "join", "split", "contains", "len",
   "file_exists", "read_file", "write_file", "dirname", "basename", "extension"]

def initRegistry : Smap FnDef :=
  nativeNames.foldl (fun m n => Smap.insert n (.native n) m) []

/-- The interpreter state: the current environment chain (global frame
last), the accumulating `BuildConfig`, and the function registry. -/
structure InterpState where
  env : List Frame
  config : BuildConfig
  registry : Smap FnDef

/-- `Interpreter::is_truthy` (a null pointer never reaches it from
`eval_expression`). -/
def is_truthy (v : IrisValue) : Bool := v.as_bool

/-- `Interpreter::value_to_string_list`. -/
def value_to_string_list : IrisValue → List String
  | .arr elems => elems.map IrisValue.to_string
  | .str s => [s]
  | _ => []

/-- `def.find('=')` splitting of a `NAME=VALUE` define. -/
def splitAtEq : List Char → Option (List Char × List Char)
  | [] => none
  | '=' :: rest => some ([], rest)
  | c :: rest => (splitAtEq rest).map (fun p => (c :: p.1, p.2))

/-- Fold the extracted `defines` list into the target map
(`"NAME=VALUE"` splits at the first `=`, bare `"NAME"` maps to `""`). -/
def addDefine (m : Smap String) (def_ : String) : Smap String :=
  match splitAtEq def_.toList with
  | some (a, b) => Smap.insert (String.mk a) (String.mk b) m
  | none => Smap.insert def_ "" m

/-- The `switch` of `Interpreter::eval_target` on the block keyword:
`library` and `static_library` collapse to `Library`; unknown kinds
default to `Executable`. -/
def targetTypeOf (s : String) : TargetType :=
  if s = "executable" then .Executable
  else if s = "library" ∨ s = "static_library" then .Library
  else if s = "shared_library" then .SharedLibrary
  else .Executable

/-- `Interpreter::eval_binary` on already-evaluated operands. -/
def binApply (op : String) (l r : IrisValue) : Except EvalErr IrisValue :=
  if op = "+" ∧ (l.is_string || r.is_string) then
    .ok (.str (l.as_string ++ r.as_string))
  else if op = "+" then .ok (.num (l.as_number + r.as_number))
  else if op = "-" then .ok (.num (l.as_number - r.as_number))
  else if op = "*" then .ok (.num (l.as_number * r.as_number))
  else if op = "/" then
    if r.as_number = 0 then .error (.runtimeError "Division by zero")
    else .ok (.num (l.as_number / r.as_number))
  else if op = "%" then
    -- C++: int % int with no zero check; a zero divisor is undefined behaviour
    if cppTrunc r.as_number = 0 then .error .ub
    else .ok (.num ((Int.tmod (cppTrunc l.as_number) (cppTrunc r.as_number) : Int) : ℚ))
  else if op = "==" ∨ op = "!=" then
    let eq :=
      if l.is_string && r.is_string then l.as_string = r.as_string
      else if l.is_number && r.is_number then l.as_number = r.as_number
      else if l.is_bool && r.is_bool then l.as_bool = r.as_bool
      else l.to_string = r.to_string
    .ok (.bool (if op = "==" then decide eq else !(decide eq)))
  else if op = "<" then .ok (.bool (decide (l.as_number < r.as_number)))
  else if op = ">" then .ok (.bool (decide (l.as_number > r.as_number)))
  else if op = "<=" then .ok (.bool (decide (l.as_number ≤ r.as_number)))
  else if op = ">=" then .ok (.bool (decide (l.as_number ≥ r.as_number)))
  else if op = "and" then .ok (.bool (is_truthy l && is_truthy r))
  else if op = "or" then .ok (.bool (is_truthy l || is_truthy r))
  else .ok .nil

/-- `Interpreter::eval_unary` on an evaluated operand (any other
operator returns the operand unchanged, as the C++ does). -/
def unApply (op : String) (v : IrisValue) : IrisValue :=
  if op = "-" then .num (-v.as_number)
  else if op = "not" ∨ op = "!" then .bool (!is_truthy v)
  else v

/-- `Interpreter::eval_member_access` on an evaluated object. -/
def memberAccess (v : IrisValue) (name : String) : IrisValue :=
  match v with
  | .hash m =>
    match Smap.lookup name m with
    | some x => x
    | none => .nil
  | .arr elems =>
    if name = "length" ∨ name = "size" then .num elems.length
    else if name = "empty" then .bool elems.isEmpty
    else if name = "first" ∧ ¬elems.isEmpty then elems.headD .nil
    else if name = "last" ∧ ¬elems.isEmpty then elems.getLastD .nil
    else .nil
  | .str s =>
    if name = "length" ∨ name = "size" then .num s.length
    else if name = "empty" then .bool s.isEmpty
    else if name = "upper" then .str (s.map Char.toUpper)
    else if name = "lower" then .str (s.map Char.toLower)
    else .nil
  | _ => .nil

/-- `Interpreter::eval_index_access` on evaluated operands
(`static_cast<int>` truncates; negative indices wrap once). -/
def indexAccess (v idx : IrisValue) : IrisValue :=
  match v, idx with
  | .arr elems, .num q =>
    let i : Int := cppTrunc q
    let i := if i < 0 then (elems.length : Int) + i else i
    if 0 ≤ i ∧ i < (elems.length : Int) then elems.getD i.toNat .nil else .nil
  | .hash m, .str s =>
    match Smap.lookup s m with
    | some x => x
    | none => .nil
  | .str s, .num q =>
    let i : Int := cppTrunc q
    let i := if i < 0 then (s.length : Int) + i else i
    if 0 ≤ i ∧ i < (s.length : Int) then .str (String.mk [s.toList.getD i.toNat ' '])
    else .nil
  | _, _ => .nil

/-- The tail of `Interpreter::eval_target`: the `Target` record read out
of the block frame after the body ran (`env` is the chain still holding
the pushed frame). -/
def extractTarget (env : List Frame) (ttype name : String) : Target :=
  let tgt : Target := { name := name, type := targetTypeOf ttype }
  let tgt := match envGet env "sources" with
    | some v => { tgt with sources := value_to_string_list v }
    | none => tgt
  let tgt := match envGet env "includes" with
    | some v => { tgt with includes := value_to_string_list v }
    | none => tgt
  let tgt := match envGet env "flags" with
    | some v => { tgt with flags := value_to_string_list v }
    | none => tgt
  let tgt := match envGet env "link_flags" with
    | some v => { tgt with link_flags := value_to_string_list v }
    | none => tgt
  let tgt := match envGet env "deps" with
    | some v => { tgt with dependencies := value_to_string_list v }
    | none => tgt
  let tgt := match envGet env "defines" with
    | some v => { tgt with defines := (value_to_string_list v).foldl addDefine [] }
    | none => tgt
  tgt

mutual

/-- `Interpreter::eval_expression`.  The pair result carries the state:
calls can mutate the global frame, the registry and the config.  Fuel is
structural: every nested evaluation step costs one unit, so any
terminating C++ evaluation is reproduced exactly for every sufficiently
large fuel. -/
def evalExpr : Nat → InterpState → Expr → Except EvalErr IrisValue × InterpState
  | 0, st, _ => (.error .outOfFuel, st)
  | f + 1, st, e =>
    match e with
    | .strLit s => (.ok (.str s), st)
    | .numLit q _ => (.ok (.num q), st)
    | .boolLit b => (.ok (.bool b), st)
    | .symbol name => (.ok (.str name), st)
    | .ident name =>
      match envGet st.env name with
      | some v => (.ok v, st)
      | none =>
        if (Smap.lookup name st.registry).isSome then
          (.ok (.str ("__func:" ++ name)), st)
        else (.ok .nil, st)
    | .arrayLit elems =>
      match evalArgs f st elems with
      | (.ok vs, st2) => (.ok (.arr vs), st2)
      | (.error err, st2) => (.error err, st2)
    | .hashLit pairs =>
      match evalPairs f st pairs [] with
      | (.ok m, st2) => (.ok (.hash m), st2)
      | (.error err, st2) => (.error err, st2)
    | .binop op l r =>
      match evalExpr f st l with
      | (.error err, st2) => (.error err, st2)
      | (.ok vl, st2) =>
        match evalExpr f st2 r with
        | (.error err, st3) => (.error err, st3)
        | (.ok vr, st3) => (binApply op vl vr, st3)
    | .unop op e1 =>
      match evalExpr f st e1 with
      | (.error err, st2) => (.error err, st2)
      | (.ok v, st2) => (.ok (unApply op v), st2)
    | .call name args =>
      match evalArgs f st args with
      | (.error err, st2) => (.error err, st2)
      | (.ok vs, st2) =>
        match Smap.lookup name st2.registry with
        | none => (.error (.runtimeError ("Unknown function: " ++ name)), st2)
        | some (.native nm) => (.error (.hostBuiltin nm), st2)
        | some (.user params body) =>
          let glob := st2.env.getLastD []
          let callFrame := (params.zip vs).foldl (fun fr pv => Smap.insert pv.1 pv.2 fr) []
          let stCall : InterpState := { st2 with env := [callFrame, glob] }
          match evalStmts f stCall body with
          | (.ok _, st3) =>
            (.ok .nil, { st3 with env := st2.env.dropLast ++ [st3.env.getLastD []] })
          | (.error (.thrown v), st3) =>
            (.ok v, { st3 with env := st2.env.dropLast ++ [st3.env.getLastD []] })
          | (.error err, st3) => (.error err, st3)
        | some (.task body) =>
          let stCall : InterpState := { st2 with env := [] :: st2.env }
          match evalStmts f stCall body with
          | (.ok _, st3) => (.ok .nil, { st3 with env := st3.env.drop 1 })
          | (.error err, st3) => (.error err, st3)
    | .member obj name =>
      match evalExpr f st obj with
      | (.error err, st2) => (.error err, st2)
      | (.ok v, st2) => (.ok (memberAccess v name), st2)
    | .indexAcc obj idx =>
      match evalExpr f st obj with
      | (.error err, st2) => (.error err, st2)
      | (.ok v, st2) =>
        match evalExpr f st2 idx with
        | (.error err, st3) => (.error err, st3)
        | (.ok vi, st3) => (.ok (indexAccess v vi), st3)

/-- Left-to-right evaluation of an argument or array-element list. -/
def evalArgs : Nat → InterpState → List Expr → Except EvalErr (List IrisValue) × InterpState
  | 0, st, _ => (.error .outOfFuel, st)
  | f + 1, st, es =>
    match es with
    | [] => (.ok [], st)
    | e :: rest =>
      match evalExpr f st e with
      | (.error err, st2) => (.error err, st2)
      | (.ok v, st2) =>
        match evalArgs f st2 rest with
        | (.error err, st3) => (.error err, st3)
        | (.ok vs, st3) => (.ok (v :: vs), st3)

/-- Hash-literal evaluation: key, then value, inserted in order
(`std::map` assignment; the last duplicate key wins). -/
def evalPairs : Nat → InterpState → List (Expr × Expr) → Smap IrisValue →
    Except EvalErr (Smap IrisValue) × InterpState
  | 0, st, _, _ => (.error .outOfFuel, st)
  | f + 1, st, ps, acc =>
    match ps with
    | [] => (.ok acc, st)
    | (k, v) :: rest =>
      match evalExpr f st k with
      | (.error err, st2) => (.error err, st2)
      | (.ok kv, st2) =>
        match evalExpr f st2 v with
        | (.error err, st3) => (.error err, st3)
        | (.ok vv, st3) => evalPairs f st3 rest (Smap.insert kv.as_string vv acc)

/-- `Interpreter::eval_statement` (the `dynamic_pointer_cast` chain).
A `DependencyBlock` matches none of the casts: the statement is a
silent no-op. -/
def evalStmt : Nat → InterpState → Stmt → Except EvalErr Unit × InterpState
  | 0, st, _ => (.error .outOfFuel, st)
  | f + 1, st, stmt =>
    match stmt with
    | .projectBlock name body =>
      let st1 : InterpState := { st with config := { st.config with project_name := name } }
      let st2 : InterpState := { st1 with env := [] :: st1.env }
      match evalStmts f st2 body with
      | (.error err, st3) => (.error err, st3)
      | (.ok _, st3) =>
        let cfg := st3.config
        let cfg := match envGet st3.env "version" with
          | some v => { cfg with version := v.as_string }
          | none => cfg
        let cfg := match envGet st3.env "lang" with
          | some v => { cfg with language := v.as_string }
          | none => cfg
        let cfg := match envGet st3.env "std" with
          | some v => { cfg with standard := v.as_string }
          | none => cfg
        -- `license` is looked up but discarded by the C++ code
        (.ok (), { st3 with config := cfg, env := st3.env.drop 1 })
    | .targetBlock ttype name body =>
      let st2 : InterpState := { st with env := [] :: st.env }
      match evalStmts f st2 body with
      | (.error err, st3) => (.error err, st3)
      | (.ok _, st3) =>
        (.ok (), { st3 with
          config := { st3.config with
            targets := st3.config.targets ++ [extractTarget st3.env ttype name] },
          env := st3.env.drop 1 })
    | .compilerBlock body =>
      let st2 : InterpState := { st with env := [] :: st.env }
      match evalStmts f st2 body with
      | (.error err, st3) => (.error err, st3)
      | (.ok _, st3) =>
        let cfg := st3.config
        let cfg := match envGet st3.env "flags" with
          | some v => { cfg with global_flags := cfg.global_flags ++ value_to_string_list v }
          | none => cfg
        let cfg := match envGet st3.env "warnings" with
          | some v => { cfg with global_flags := cfg.global_flags ++ value_to_string_list v }
          | none => cfg
        let cfg := match envGet st3.env "cc" with
          | some v => { cfg with compiler := v.as_string }
          | none => cfg
        let cfg := match envGet st3.env "cxx" with
          | some v => { cfg with compiler := v.as_string }
          | none => cfg
        (.ok (), { st3 with config := cfg, env := st3.env.drop 1 })
    | .taskBlock name body =>
      (.ok (), { st with
        registry := Smap.insert ("task_" ++ name) (.task body) st.registry,
        env := envDefineGlobal st.env ("__task_" ++ name) (.str name) })
    | .ifStmt c t e =>
      match evalExpr f st c with
      | (.error err, st2) => (.error err, st2)
      | (.ok v, st2) =>
        if is_truthy v then evalStmts f st2 t
        else
          match e with
          | some els => evalStmts f st2 els
          | none => (.ok (), st2)
    | .unlessStmt c body =>
      match evalExpr f st c with
      | (.error err, st2) => (.error err, st2)
      | (.ok v, st2) =>
        if is_truthy v then (.ok (), st2) else evalStmts f st2 body
    | .forLoop var iter body =>
      match evalExpr f st iter with
      | (.error err, st2) => (.error err, st2)
      | (.ok v, st2) =>
        match v with
        | .arr elems =>
          let st3 : InterpState := { st2 with env := [] :: st2.env }
          match evalForEach f st3 var elems body with
          | (.ok _, st4) => (.ok (), { st4 with env := st4.env.drop 1 })
          | (.error err, st4) => (.error err, st4)
        | _ => (.error (.runtimeError "For loop requires an array"), st2)
    | .functionDef name params body =>
      (.ok (), { st with registry := Smap.insert name (.user params body) st.registry })
    | .assignment name value =>
      match evalExpr f st value with
      | (.error err, st2) => (.error err, st2)
      | (.ok v, st2) => (.ok (), { st2 with env := envSet st2.env name v })
    | .exprStmt e =>
      match evalExpr f st e with
      | (.error err, st2) => (.error err, st2)
      | (.ok _, st2) => (.ok (), st2)
    | .returnStmt value =>
      match value with
      | some e =>
        match evalExpr f st e with
        | (.error err, st2) => (.error err, st2)
        | (.ok v, st2) => (.error (.thrown v), st2)
      | none => (.ok (), st)
    | .dependencyBlock _ _ => (.ok (), st)

/-- `Interpreter::eval_block`: statements in order; an exception aborts
the rest. -/
def evalStmts : Nat → InterpState → List Stmt → Except EvalErr Unit × InterpState
  | 0, st, _ => (.error .outOfFuel, st)
  | f + 1, st, ss =>
    match ss with
    | [] => (.ok (), st)
    | s :: rest =>
      match evalStmt f st s with
      | (.error err, st2) => (.error err, st2)
      | (.ok _, st2) => evalStmts f st2 rest

/-- The loop of `Interpreter::eval_for`: rebind the loop variable in the
pushed frame, then run the body, for each element. -/
def evalForEach : Nat → InterpState → String → List IrisValue → List Stmt →
    Except EvalErr Unit × InterpState
  | 0, st, _, _, _ => (.error .outOfFuel, st)
  | f + 1, st, var, elems, body =>
    match elems with
    | [] => (.ok (), st)
    | v :: vs =>
      let st2 : InterpState := { st with env := envDefine st.env var v }
      match evalStmts f st2 body with
      | (.error err, st3) => (.error err, st3)
      | (.ok _, st3) => evalForEach f st3 var vs body

end

/-- The seeded global frame of `Interpreter::execute`: `platform` and
`arch` are host strings (values of the corresponding built-ins on the
build host). -/
def initState (hostPlatform hostArch : String) : InterpState :=
  { env := [Smap.insert "arch" (.str hostArch)
      (Smap.insert "platform" (.str hostPlatform) [])],
    config := {},
    registry := initRegistry }

/-- `Interpreter::execute`: fresh config, seeded globals, then the
top-level statements in order.  The final state carries the
`BuildConfig` the C++ function returns. -/
def execute (fuel : Nat) (hostPlatform hostArch : String) (stmts : List Stmt) :
    Except EvalErr Unit × InterpState :=
  evalStmts fuel (initState hostPlatform hostArch) stmts

/-! ### Lexer (`Lexer` in `src/src/lang/interpreter.cpp`, header `lexer.hpp`) -/

/-- `TokenType` of `lexer.hpp`. -/
inductive TokenType where
  | STRING | NUMBER | SYMBOL | IDENTIFIER
  | PROJECT | EXECUTABLE | LIBRARY | SHARED_LIBRARY | STATIC_LIBRARY
  | COMPILER | DEPENDENCY | TASK | IF | ELSE | UNLESS | FOR | IN | DO | END
  | FN | RETURN | TRUE | FALSE | NIL | AND | OR | NOT
  | PLUS | MINUS | STAR | SLASH | PERCENT | EQ | EQEQ | NEQ | LT | GT | LTE | GTE
  | PLUSEQ | MINUSEQ
  | LPAREN | RPAREN | LBRACKET | RBRACKET | LBRACE | RBRACE
  | COMMA | DOT | COLON | SEMICOLON | ARROW | FAT_ARROW
  | INTERPOLATION_START | NEWLINE | INDENT | DEDENT | END_OF_FILE | ERROR
  deriving DecidableEq, Repr

/-- `Token` of `lexer.hpp` (`line`/`column` are the lexer position at
`make_token` time, i.e. just after the lexeme). -/
structure Token where
  type : TokenType
  value : String
  line : Nat
  column : Nat
  deriving DecidableEq, Repr

def is_digit (c : Char) : Bool := decide (48 ≤ c.val) && decide (c.val ≤ 57)

def is_alpha (c : Char) : Bool :=
  (decide (97 ≤ c.val) && decide (c.val ≤ 122)) ||
  (decide (65 ≤ c.val) && decide (c.val ≤ 90)) || c = '_'

def is_alphanumeric (c : Char) : Bool := is_alpha c || is_digit c

/-- A double quote (34) or a single quote (39): the characters that open a
string literal. -/
def isQuote (c : Char) : Bool := c.val = 34 || c.val = 39

/-- `Lexer::advance` on the (line, column) pair for one consumed char. -/
def posStep (pos : Nat × Nat) (c : Char) : Nat × Nat :=
  if c = '\n' then (pos.1 + 1, 1) else (pos.1, pos.2 + 1)

def posSteps (pos : Nat × Nat) (cs : List Char) : Nat × Nat := cs.foldl posStep pos

/-- `Lexer::peek_char(offset)`: the null character once past the end. -/
def peekChar (src : List Char) (offset : Nat) : Char :=
  (src.get? offset).getD (Char.ofNat 0)

/-- `Lexer::skip_whitespace` (space, tab, carriage return; not newline). -/
def skip_whitespace : List Char → Nat × Nat → List Char × (Nat × Nat)
  | [], pos => ([], pos)
  | c :: rest, pos =>
    if c = ' ' || c = '\t' || c = '\r' then skip_whitespace rest (posStep pos c)
    else (c :: rest, pos)

/-- `Lexer::skip_comment`: consume up to (not including) the next newline. -/
def skip_comment : List Char → Nat × Nat → List Char × (Nat × Nat)
  | [], pos => ([], pos)
  | c :: rest, pos =>
    if c = '\n' then (c :: rest, pos) else skip_comment rest (posStep pos c)

/-- The escape map of `Lexer::scan_string` (the default case copies the
character, which also covers backslash and both quotes). -/
def escChar (c : Char) : Char :=
  if c = 'n' then '\n' else if c = 't' then '\t' else if c = 'r' then '\r' else c

/-- The scanning loop of `Lexer::scan_string`, entered after the opening
quote.  At end of input it returns the ERROR token "Unterminated string"
made at the position reached, i.e. end of input, not the start of the
string. -/
def scanStrLoop (q : Char) : List Char → Nat × Nat → String → Token × (List Char × (Nat × Nat))
  | [], pos, _ => (⟨.ERROR, "Unterminated string", pos.1, pos.2⟩, ([], pos))
  | c :: rest, pos, value =>
    if c = q then
      let pos2 := posStep pos c
      (⟨.STRING, value, pos2.1, pos2.2⟩, (rest, pos2))
    else if c = '\\' then
      match rest with
      | [] =>
        let pos2 := posStep pos c
        (⟨.ERROR, "Unterminated string", pos2.1, pos2.2⟩, ([], pos2))
      | e :: rest2 =>
        scanStrLoop q rest2 (posStep (posStep pos c) e) (value.push (escChar e))
    else scanStrLoop q rest (posStep pos c) (value.push c)

/-- `Lexer::scan_number`: digits, then a fractional part only when a dot is
directly followed by a digit. -/
def scan_number (src : List Char) (pos : Nat × Nat) : Token × (List Char × (Nat × Nat)) :=
  let ds := src.takeWhile is_digit
  let rest := src.dropWhile is_digit
  let pos1 := posSteps pos ds
  match rest with
  | c :: d :: rest2 =>
    if c = '.' && is_digit d then
      let ds2 := (d :: rest2).takeWhile is_digit
      let rest3 := (d :: rest2).dropWhile is_digit
      let pos2 := posSteps (posStep pos1 c) ds2
      (⟨.NUMBER, String.mk (ds ++ c :: ds2), pos2.1, pos2.2⟩, (rest3, pos2))
    else (⟨.NUMBER, String.mk ds, pos1.1, pos1.2⟩, (rest, pos1))
  | _ => (⟨.NUMBER, String.mk ds, pos1.1, pos1.2⟩, (rest, pos1))

/-- `Lexer::keywords`. -/
def keywords : List (String × TokenType) :=
  [("project", .PROJECT), ("executable", .EXECUTABLE), ("library", .LIBRARY),
   ("shared_library", .SHARED_LIBRARY), ("static_library", .STATIC_LIBRARY),
   ("compiler", .COMPILER), ("dependency", .DEPENDENCY), ("task", .TASK),
   ("if", .IF), ("else", .ELSE), ("unless", .UNLESS), ("for", .FOR),
   ("in", .IN), ("do", .DO), ("end", .END), ("fn", .FN), ("return", .RETURN),
   ("true", .TRUE), ("false", .FALSE), ("nil", .NIL), ("and", .AND),
   ("or", .OR), ("not", .NOT)]

/-- `Lexer::scan_identifier_or_keyword`. -/
def scan_ident (src : List Char) (pos : Nat × Nat) : Token × (List Char × (Nat × Nat)) :=
  let p := fun c => is_alphanumeric c || c = '_'
  let cs := src.takeWhile p
  let rest := src.dropWhile p
  let pos1 := posSteps pos cs
  let value := String.mk cs
  match keywords.lookup value with
  | some t => (⟨t, value, pos1.1, pos1.2⟩, (rest, pos1))
  | none => (⟨.IDENTIFIER, value, pos1.1, pos1.2⟩, (rest, pos1))

/-- `Lexer::scan_symbol`, entered after the colon was consumed. -/
def scan_symbol (src : List Char) (pos : Nat × Nat) : Token × (List Char × (Nat × Nat)) :=
  let p := fun c => is_alphanumeric c || c = '_'
  let cs := src.takeWhile p
  let rest := src.dropWhile p
  let pos1 := posSteps pos cs
  (⟨.SYMBOL, String.mk cs, pos1.1, pos1.2⟩, (rest, pos1))

/-- `Lexer::match(expected)`. -/
def matchChar (expected : Char) (src : List Char) (pos : Nat × Nat) :
    Bool × List Char × (Nat × Nat) :=
  match src with
  | c :: rest => if c = expected then (true, rest, posStep pos c) else (false, src, pos)
  | [] => (false, [], pos)

/-- The operator/delimiter switch at the end of `Lexer::next_token`; `c` has
already been consumed.  An unknown character yields an ERROR token holding
that character.  (The `#` case of the switch is handled by the caller, as it
can re-enter `next_token`.) -/
def opToken (c : Char) (src : List Char) (pos : Nat × Nat) : Token × (List Char × (Nat × Nat)) :=
  if c = '(' then (⟨.LPAREN, "", pos.1, pos.2⟩, (src, pos))
  else if c = ')' then (⟨.RPAREN, "", pos.1, pos.2⟩, (src, pos))
  else if c = '[' then (⟨.LBRACKET, "", pos.1, pos.2⟩, (src, pos))
  else if c = ']' then (⟨.RBRACKET, "", pos.1, pos.2⟩, (src, pos))
  else if c.val = 123 then (⟨.LBRACE, "", pos.1, pos.2⟩, (src, pos))
  else if c.val = 125 then (⟨.RBRACE, "", pos.1, pos.2⟩, (src, pos))
  else if c = ',' then (⟨.COMMA, "", pos.1, pos.2⟩, (src, pos))
  else if c = '.' then (⟨.DOT, "", pos.1, pos.2⟩, (src, pos))
  else if c = ';' then (⟨.SEMICOLON, "", pos.1, pos.2⟩, (src, pos))
  else if c = ':' then (⟨.COLON, "", pos.1, pos.2⟩, (src, pos))
  else if c = '+' then
    match matchChar '=' src pos with
    | (true, src2, pos2) => (⟨.PLUSEQ, "", pos2.1, pos2.2⟩, (src2, pos2))
    | (false, _, _) => (⟨.PLUS, "", pos.1, pos.2⟩, (src, pos))
  else if c = '-' then
    match matchChar '>' src pos with
    | (true, src2, pos2) => (⟨.ARROW, "", pos2.1, pos2.2⟩, (src2, pos2))
    | (false, _, _) =>
      match matchChar '=' src pos with
      | (true, src2, pos2) => (⟨.MINUSEQ, "", pos2.1, pos2.2⟩, (src2, pos2))
      | (false, _, _) => (⟨.MINUS, "", pos.1, pos.2⟩, (src, pos))
  else if c = '*' then (⟨.STAR, "", pos.1, pos.2⟩, (src, pos))
  else if c = '/' then (⟨.SLASH, "", pos.1, pos.2⟩, (src, pos))
  else if c = '%' then (⟨.PERCENT, "", pos.1, pos.2⟩, (src, pos))
  else if c = '=' then
    match matchChar '=' src pos with
    | (true, src2, pos2) => (⟨.EQEQ, "", pos2.1, pos2.2⟩, (src2, pos2))
    | (false, _, _) =>
      match matchChar '>' src pos with
      | (true, src2, pos2) => (⟨.FAT_ARROW, "", pos2.1, pos2.2⟩, (src2, pos2))
      | (false, _, _) => (⟨.EQ, "", pos.1, pos.2⟩, (src, pos))
  else if c = '!' then
    match matchChar '=' src pos with
    | (true, src2, pos2) => (⟨.NEQ, "", pos2.1, pos2.2⟩, (src2, pos2))
    | (false, _, _) => (⟨.NOT, "", pos.1, pos.2⟩, (src, pos))
  else if c = '<' then
    match matchChar '=' src pos with
    | (true, src2, pos2) => (⟨.LTE, "", pos2.1, pos2.2⟩, (src2, pos2))
    | (false, _, _) => (⟨.LT, "", pos.1, pos.2⟩, (src, pos))
  else if c = '>' then
    match matchChar '=' src pos with
    | (true, src2, pos2) => (⟨.GTE, "", pos2.1, pos2.2⟩, (src2, pos2))
    | (false, _, _) => (⟨.GT, "", pos.1, pos.2⟩, (src, pos))
  else (⟨.ERROR, String.mk [c], pos.1, pos.2⟩, (src, pos))

theorem skip_whitespace_length_le (src : List Char) (pos : Nat × Nat) :
    (skip_whitespace src pos).1.length ≤ src.length := by
  induction src generalizing pos with
  | nil => simp [skip_whitespace]
  | cons c rest ih =>
    rw [skip_whitespace]
    by_cases h : (c = ' ' || c = '\t' || c = '\r') = true
    · rw [if_pos h]
      exact (ih (posStep pos c)).trans (Nat.le_succ _)
    · rw [if_neg h]

theorem skip_comment_length_le (src : List Char) (pos : Nat × Nat) :
    (skip_comment src pos).1.length ≤ src.length := by
  induction src generalizing pos with
  | nil => simp [skip_comment]
  | cons c rest ih =>
    rw [skip_comment]
    by_cases h : c = '\n'
    · rw [if_pos h]
    · rw [if_neg h]
      exact (ih (posStep pos c)).trans (Nat.le_succ _)

/-- `Lexer::next_token`.  The comment cases re-enter the function after
`skip_comment`, which has consumed at least the comment opener. -/
def next_token (src : List Char) (pos : Nat × Nat) : Token × (List Char × (Nat × Nat)) :=
  match hws : skip_whitespace src pos with
  | ([], pos1) => (⟨.END_OF_FILE, "", pos1.1, pos1.2⟩, ([], pos1))
  | (c :: rest, pos1) =>
    if h1 : c = Char.ofNat 35 ∧ peekChar (c :: rest) 1 ≠ Char.ofNat 123 then
      let s2 := skip_comment (c :: rest) pos1
      next_token s2.1 s2.2
    else if h2 : c = '/' ∧ peekChar (c :: rest) 1 = '/' then
      let s2 := skip_comment (c :: rest) pos1
      next_token s2.1 s2.2
    else if c = '\n' then
      let pos2 := posStep pos1 c
      (⟨.NEWLINE, "", pos2.1, pos2.2⟩, (rest, pos2))
    else if isQuote c then scanStrLoop c rest (posStep pos1 c) ""
    else if is_digit c then scan_number (c :: rest) pos1
    else if c = ':' && is_alpha (peekChar (c :: rest) 1) then
      scan_symbol rest (posStep pos1 c)
    else if is_alpha c || c = '_' then scan_ident (c :: rest) pos1
    else if h3 : c = Char.ofNat 35 then
      match matchChar (Char.ofNat 123) rest (posStep pos1 c) with
      | (true, src2, pos2) => (⟨.INTERPOLATION_START, "", pos2.1, pos2.2⟩, (src2, pos2))
      | (false, _, _) =>
        let s2 := skip_comment rest (posStep pos1 c)
        next_token s2.1 s2.2
    else opToken c rest (posStep pos1 c)
termination_by src.length
decreasing_by
  · have hle : (skip_comment (c :: rest) pos1).1.length ≤ rest.length := by
      rw [skip_comment, if_neg (by rw [h1.1]; decide)]
      exact skip_comment_length_le rest (posStep pos1 _)
    have hsw := skip_whitespace_length_le src pos
    rw [hws] at hsw
    calc (skip_comment (c :: rest) pos1).1.length
        ≤ rest.length := hle
      _ < (c :: rest).length := by simp
      _ ≤ src.length := hsw
  · have hle : (skip_comment (c :: rest) pos1).1.length ≤ rest.length := by
      rw [skip_comment, if_neg (by rw [h2.1]; decide)]
      exact skip_comment_length_le rest (posStep pos1 _)
    have hsw := skip_whitespace_length_le src pos
    rw [hws] at hsw
    calc (skip_comment (c :: rest) pos1).1.length
        ≤ rest.length := hle
      _ < (c :: rest).length := by simp
      _ ≤ src.length := hsw
  · have hle : (skip_comment rest (posStep pos1 c)).1.length ≤ rest.length :=
      skip_comment_length_le rest (posStep pos1 c)
    have hsw := skip_whitespace_length_le src pos
    rw [hws] at hsw
    calc (skip_comment rest (posStep pos1 c)).1.length
        ≤ rest.length := hle
      _ < (c :: rest).length := by simp
      _ ≤ src.length := hsw

/-- The loop of `Lexer::tokenize`: ERROR tokens are silently dropped, and
the loop breaks after pushing an END_OF_FILE token.  Fuel bounds the
iteration count; each iteration that does not break consumes at least one
character, so `src.length + 1` suffices. -/
def tokenizeLoop : Nat → List Char → Nat × Nat → List Token → List Token
  | 0, _, _, acc => acc.reverse
  | fuel + 1, src, pos, acc =>
    if src.isEmpty then acc.reverse
    else
      match next_token src pos with
      | (t, (src2, pos2)) =>
        let acc2 := if t.type = .ERROR then acc else t :: acc
        if t.type = .END_OF_FILE then acc2.reverse
        else tokenizeLoop fuel src2 pos2 acc2

/-- `Lexer::tokenize` on a source string (lexer constructed at position
line 1, column 1). -/
def tokenize (source : String) : List Token :=
  tokenizeLoop (source.length + 1) source.toList (1, 1) []

/-! ### Parser (`Parser` in `src/unnamed/part_005`)

The token cursor mirrors `m_tokens`/`m_current`; `m_current--` backtracking
in `parse_assignment_or_expression` is why the index is kept instead of a
shrinking list.  Recursion is fueled structurally: every nested parse call
costs one unit.  C++ error messages quote the expected lexeme in single
quotes; the model drops the quote characters from the message text. -/

structure PState where
  tokens : List Token
  cur : Nat
  deriving DecidableEq, Repr

structure ParseError where
  msg : String
  line : Nat
  column : Nat
  deriving DecidableEq, Repr

/-- `Parser::current_token`: a synthesized END_OF_FILE token past the end. -/
def PState.currentTok (p : PState) : Token :=
  (p.tokens.get? p.cur).getD ⟨.END_OF_FILE, "", 0, 0⟩

/-- `Parser::previous_token`: a synthesized ERROR token at index 0. -/
def PState.prevTok (p : PState) : Token :=
  if p.cur = 0 then ⟨.ERROR, "", 0, 0⟩
  else (p.tokens.get? (p.cur - 1)).getD ⟨.ERROR, "", 0, 0⟩

def PState.isAtEnd (p : PState) : Bool := p.currentTok.type = .END_OF_FILE

/-- `Parser::advance`: move unless at end, return the token just consumed. -/
def PState.advance (p : PState) : Token × PState :=
  if p.isAtEnd then (p.prevTok, p)
  else
    let p2 : PState := { p with cur := p.cur + 1 }
    (p2.prevTok, p2)

def PState.checkT (p : PState) (t : TokenType) : Bool := p.currentTok.type = t

/-- `Parser::match(type)`. -/
def PState.matchT (p : PState) (t : TokenType) : Bool × PState :=
  if p.checkT t then (true, (p.advance).2) else (false, p)

/-- `Parser::match(initializer_list)`. -/
def PState.matchAny (p : PState) (ts : List TokenType) : Bool × PState :=
  if ts.any (fun t => p.checkT t) then (true, (p.advance).2) else (false, p)

/-- `Parser::error`: message plus the current token value and position. -/
def perror (p : PState) (msg : String) : ParseError :=
  ⟨msg ++ " at " ++ p.currentTok.value, p.currentTok.line, p.currentTok.column⟩

/-- `Parser::consume`. -/
def PState.consume (p : PState) (t : TokenType) (msg : String) :
    Except ParseError (Token × PState) :=
  if p.checkT t then .ok p.advance else .error (perror p msg)

/-- The loop of `Parser::skip_newlines`, fueled by the remaining token
count (each iteration consumes one NEWLINE token, so the fuel never runs
out before the loop condition fails). -/
def skipNlFuel : Nat → PState → PState
  | 0, p => p
  | f + 1, p => if p.checkT .NEWLINE then skipNlFuel f (p.advance).2 else p

/-- `Parser::skip_newlines`. -/
def PState.skipNl (p : PState) : PState := skipNlFuel (p.tokens.length - p.cur) p

def fuelErr {α : Type} : Except ParseError (α × PState) :=
  .error ⟨"parse fuel exhausted", 0, 0⟩

/-- Sequencing for the parsing functions (propagate a `ParseError`, thread
the cursor). -/
def pbind {α β : Type} (x : Except ParseError (α × PState))
    (fn : α → PState → Except ParseError (β × PState)) :
    Except ParseError (β × PState) :=
  match x with
  | .error e => .error e
  | .ok (a, p) => fn a p

def isIfStmt : Stmt → Bool
  | .ifStmt _ _ _ => true
  | _ => false

/-- The tail of `Parser::parse_if_statement`: `end` is consumed except when
the else block starts with an IfStatement (the else-if chain). -/
def finishIf (cond : Expr) (thenB : List Stmt) (elseB : Option (List Stmt))
    (p : PState) : Except ParseError (Stmt × PState) :=
  let needEnd :=
    match elseB with
    | none => true
    | some [] => true
    | some (s :: _) => !(isIfStmt s)
  if needEnd then
    pbind (p.consume .END "Expected end to close if statement") fun _ p2 =>
      .ok (Stmt.ifStmt cond thenB elseB, p2)
  else .ok (Stmt.ifStmt cond thenB elseB, p)

/-- `switch` of `Parser::parse_comparison` (default leaves the op empty). -/
def cmpOpStr (t : TokenType) : String :=
  if t = .LT then "<" else if t = .GT then ">"
  else if t = .LTE then "<=" else if t = .GTE then ">=" else ""

/-- `switch` of `Parser::parse_factor` (default leaves the op empty). -/
def facOpStr (t : TokenType) : String :=
  if t = .STAR then "*" else if t = .SLASH then "/"
  else if t = .PERCENT then "%" else ""

mutual

/-- `Parser::parse_statement`. -/
def parse_statement : Nat → PState → Except ParseError (Stmt × PState)
  | 0, _ => fuelErr
  | f + 1, p0 =>
    let p := p0.skipNl
    let (m, p) := p.matchT .PROJECT
    if m then parse_project_block f p else
    let (m, p) := p.matchT .EXECUTABLE
    if m then parse_target_block f "executable" p else
    let (m, p) := p.matchT .LIBRARY
    if m then parse_target_block f "library" p else
    let (m, p) := p.matchT .SHARED_LIBRARY
    if m then parse_target_block f "shared_library" p else
    let (m, p) := p.matchT .STATIC_LIBRARY
    if m then parse_target_block f "static_library" p else
    let (m, p) := p.matchT .COMPILER
    if m then parse_compiler_block f p else
    let (m, p) := p.matchT .DEPENDENCY
    if m then parse_dependency_block f p else
    let (m, p) := p.matchT .TASK
    if m then parse_task_block f p else
    let (m, p) := p.matchT .IF
    if m then parse_if_statement f p else
    let (m, p) := p.matchT .UNLESS
    if m then parse_unless_statement f p else
    let (m, p) := p.matchT .FOR
    if m then parse_for_loop f p else
    let (m, p) := p.matchT .FN
    if m then parse_function_def f p else
    let (m, p) := p.matchT .RETURN
    if m then
      if !(p.checkT .NEWLINE) && !(p.checkT .END) then
        pbind (parse_expression f p) fun v p1 => .ok (Stmt.returnStmt (some v), p1)
      else .ok (Stmt.returnStmt none, p)
    else parse_assignment_or_expression f p

def parse_project_block : Nat → PState → Except ParseError (Stmt × PState)
  | 0, _ => fuelErr
  | f + 1, p =>
    pbind (p.consume .STRING "Expected project name") fun nameTok p1 =>
    pbind (p1.consume .DO "Expected do after project name") fun _ p2 =>
    pbind (parse_block f p2) fun body p3 =>
    pbind (p3.consume .END "Expected end to close project block") fun _ p4 =>
      .ok (Stmt.projectBlock nameTok.value body, p4)

def parse_target_block : Nat → String → PState → Except ParseError (Stmt × PState)
  | 0, _, _ => fuelErr
  | f + 1, ttype, p =>
    pbind (p.consume .STRING "Expected target name") fun nameTok p1 =>
    pbind (p1.consume .DO "Expected do after target name") fun _ p2 =>
    pbind (parse_block f p2) fun body p3 =>
    pbind (p3.consume .END "Expected end to close target block") fun _ p4 =>
      .ok (Stmt.targetBlock ttype nameTok.value body, p4)

def parse_compiler_block : Nat → PState → Except ParseError (Stmt × PState)
  | 0, _ => fuelErr
  | f + 1, p =>
    pbind (p.consume .DO "Expected do after compiler") fun _ p2 =>
    pbind (parse_block f p2) fun body p3 =>
    pbind (p3.consume .END "Expected end to close compiler block") fun _ p4 =>
      .ok (Stmt.compilerBlock body, p4)

def parse_dependency_block : Nat → PState → Except ParseError (Stmt × PState)
  | 0, _ => fuelErr
  | f + 1, p =>
    pbind (if p.checkT .STRING then .ok p.advance
      else if p.checkT .IDENTIFIER then .ok p.advance
      else .error (perror p "Expected dependency name")) fun nameTok p1 =>
    pbind (p1.consume .DO "Expected do after dependency name") fun _ p2 =>
    pbind (parse_block f p2) fun body p3 =>
    pbind (p3.consume .END "Expected end to close dependency block") fun _ p4 =>
      .ok (Stmt.dependencyBlock nameTok.value body, p4)

def parse_task_block : Nat → PState → Except ParseError (Stmt × PState)
  | 0, _ => fuelErr
  | f + 1, p =>
    pbind (if p.checkT .SYMBOL then .ok p.advance
      else if p.checkT .STRING then .ok p.advance
      else .error (perror p "Expected task name")) fun nameTok p1 =>
    pbind (p1.consume .DO "Expected do after task name") fun _ p2 =>
    pbind (parse_block f p2) fun body p3 =>
    pbind (p3.consume .END "Expected end to close task block") fun _ p4 =>
      .ok (Stmt.taskBlock nameTok.value body, p4)

def parse_if_statement : Nat → PState → Except ParseError (Stmt × PState)
  | 0, _ => fuelErr
  | f + 1, p =>
    pbind (parse_expression f p) fun cond p1 =>
    pbind (p1.consume .DO "Expected do after if condition") fun _ p2 =>
    pbind (parse_block f p2) fun thenB p3 =>
    let (mElse, p4) := p3.matchT .ELSE
    if mElse then
      let (mIf, p5) := p4.matchT .IF
      if mIf then
        pbind (parse_if_statement f p5) fun elseIf p6 =>
          finishIf cond thenB (some [elseIf]) p6
      else
        pbind (parse_block f p5) fun elseB p6 =>
          finishIf cond thenB (some elseB) p6
    else finishIf cond thenB none p4

def parse_unless_statement : Nat → PState → Except ParseError (Stmt × PState)
  | 0, _ => fuelErr
  | f + 1, p =>
    pbind (parse_expression f p) fun cond p1 =>
    pbind (p1.consume .DO "Expected do after unless condition") fun _ p2 =>
    pbind (parse_block f p2) fun body p3 =>
    pbind (p3.consume .END "Expected end to close unless statement") fun _ p4 =>
      .ok (Stmt.unlessStmt cond body, p4)

def parse_for_loop : Nat → PState → Except ParseError (Stmt × PState)
  | 0, _ => fuelErr
  | f + 1, p =>
    pbind (p.consume .IDENTIFIER "Expected variable name") fun varTok p1 =>
    pbind (p1.consume .IN "Expected in in for loop") fun _ p2 =>
    pbind (parse_expression f p2) fun iter p3 =>
    pbind (p3.consume .DO "Expected do after for loop header") fun _ p4 =>
    pbind (parse_block f p4) fun body p5 =>
    pbind (p5.consume .END "Expected end to close for loop") fun _ p6 =>
      .ok (Stmt.forLoop varTok.value iter body, p6)

def parse_function_def : Nat → PState → Except ParseError (Stmt × PState)
  | 0, _ => fuelErr
  | f + 1, p =>
    pbind (p.consume .IDENTIFIER "Expected function name") fun nameTok p1 =>
    pbind (p1.consume .LPAREN "Expected ( after function name") fun _ p2 =>
    pbind (if p2.checkT .RPAREN then .ok ([], p2) else parse_params f p2 [])
      fun params p3 =>
    pbind (p3.consume .RPAREN "Expected ) after parameters") fun _ p4 =>
    pbind (p4.consume .DO "Expected do after function parameters") fun _ p5 =>
    pbind (parse_block f p5) fun body p6 =>
    pbind (p6.consume .END "Expected end to close function definition") fun _ p7 =>
      .ok (Stmt.functionDef nameTok.value params body, p7)

/-- The do-while parameter loop of `Parser::parse_function_def`. -/
def parse_params : Nat → PState → List String → Except ParseError (List String × PState)
  | 0, _, _ => fuelErr
  | f + 1, p, acc =>
    pbind (p.consume .IDENTIFIER "Expected parameter name") fun tok p1 =>
    let acc2 := acc ++ [tok.value]
    let (m, p2) := p1.matchT .COMMA
    if m then parse_params f p2 acc2 else .ok (acc2, p2)

/-- `Parser::parse_assignment_or_expression`: `id = e` builds an
Assignment, `id += e` desugars to `id = id + e` with the overloaded binary
`+`, anything else backtracks one token and parses an expression
statement.  (`-=` is NOT desugared here: MINUSEQ falls to the backtrack
path.) -/
def parse_assignment_or_expression : Nat → PState → Except ParseError (Stmt × PState)
  | 0, _ => fuelErr
  | f + 1, p =>
    if p.checkT .IDENTIFIER then
      let id := p.currentTok
      let p1 := (p.advance).2
      let (mEq, p2) := p1.matchT .EQ
      if mEq then
        pbind (parse_expression f p2) fun v p3 =>
          .ok (Stmt.assignment id.value v, p3)
      else
        let (mPe, p2b) := p1.matchT .PLUSEQ
        if mPe then
          pbind (parse_expression f p2b) fun right p3 =>
            .ok (Stmt.assignment id.value
              (Expr.binop "+" (Expr.ident id.value) right), p3)
        else
          let pb : PState := { p1 with cur := p1.cur - 1 }
          pbind (parse_expression f pb) fun e p3 => .ok (Stmt.exprStmt e, p3)
    else pbind (parse_expression f p) fun e p3 => .ok (Stmt.exprStmt e, p3)

/-- `Parser::parse_block`: statements until END, ELSE or end of input. -/
def parse_block : Nat → PState → Except ParseError (List Stmt × PState)
  | 0, _ => fuelErr
  | f + 1, p => parse_block_loop f p.skipNl []

def parse_block_loop : Nat → PState → List Stmt → Except ParseError (List Stmt × PState)
  | 0, _, _ => fuelErr
  | f + 1, p, acc =>
    if !(p.checkT .END) && !(p.checkT .ELSE) && !p.isAtEnd then
      pbind (parse_statement f p) fun s p1 =>
        parse_block_loop f p1.skipNl (acc ++ [s])
    else .ok (acc, p)

def parse_expression : Nat → PState → Except ParseError (Expr × PState)
  | 0, _ => fuelErr
  | f + 1, p => parse_or f p

def parse_or : Nat → PState → Except ParseError (Expr × PState)
  | 0, _ => fuelErr
  | f + 1, p => pbind (parse_and f p) fun left p1 => parse_or_loop f left p1

def parse_or_loop : Nat → Expr → PState → Except ParseError (Expr × PState)
  | 0, _, _ => fuelErr
  | f + 1, left, p =>
    let (m, p1) := p.matchT .OR
    if m then
      pbind (parse_and f p1) fun right p2 =>
        parse_or_loop f (Expr.binop "or" left right) p2
    else .ok (left, p)

def parse_and : Nat → PState → Except ParseError (Expr × PState)
  | 0, _ => fuelErr
  | f + 1, p => pbind (parse_equality f p) fun left p1 => parse_and_loop f left p1

def parse_and_loop : Nat → Expr → PState → Except ParseError (Expr × PState)
  | 0, _, _ => fuelErr
  | f + 1, left, p =>
    let (m, p1) := p.matchT .AND
    if m then
      pbind (parse_equality f p1) fun right p2 =>
        parse_and_loop f (Expr.binop "and" left right) p2
    else .ok (left, p)

def parse_equality : Nat → PState → Except ParseError (Expr × PState)
  | 0, _ => fuelErr
  | f + 1, p => pbind (parse_comparison f p) fun left p1 => parse_eq_loop f left p1

/-- The loop of `Parser::parse_equality`.  The op string is
`previous_token().value`, which for `==`/`!=` tokens is the empty string
(operator tokens are made with the default value). -/
def parse_eq_loop : Nat → Expr → PState → Except ParseError (Expr × PState)
  | 0, _, _ => fuelErr
  | f + 1, left, p =>
    let (m, p1) := p.matchAny [.EQEQ, .NEQ]
    if m then
      pbind (parse_comparison f p1) fun right p2 =>
        parse_eq_loop f (Expr.binop p1.prevTok.value left right) p2
    else .ok (left, p)

def parse_comparison : Nat → PState → Except ParseError (Expr × PState)
  | 0, _ => fuelErr
  | f + 1, p => pbind (parse_term f p) fun left p1 => parse_cmp_loop f left p1

def parse_cmp_loop : Nat → Expr → PState → Except ParseError (Expr × PState)
  | 0, _, _ => fuelErr
  | f + 1, left, p =>
    let (m, p1) := p.matchAny [.LT, .GT, .LTE, .GTE]
    if m then
      pbind (parse_term f p1) fun right p2 =>
        parse_cmp_loop f (Expr.binop (cmpOpStr p1.prevTok.type) left right) p2
    else .ok (left, p)

def parse_term : Nat → PState → Except ParseError (Expr × PState)
  | 0, _ => fuelErr
  | f + 1, p => pbind (parse_factor f p) fun left p1 => parse_term_loop f left p1

def parse_term_loop : Nat → Expr → PState → Except ParseError (Expr × PState)
  | 0, _, _ => fuelErr
  | f + 1, left, p =>
    let (m, p1) := p.matchAny [.PLUS, .MINUS]
    if m then
      let op := if p1.prevTok.type = .PLUS then "+" else "-"
      pbind (parse_factor f p1) fun right p2 =>
        parse_term_loop f (Expr.binop op left right) p2
    else .ok (left, p)

def parse_factor : Nat → PState → Except ParseError (Expr × PState)
  | 0, _ => fuelErr
  | f + 1, p => pbind (parse_unary f p) fun left p1 => parse_factor_loop f left p1

def parse_factor_loop : Nat → Expr → PState → Except ParseError (Expr × PState)
  | 0, _, _ => fuelErr
  | f + 1, left, p =>
    let (m, p1) := p.matchAny [.STAR, .SLASH, .PERCENT]
    if m then
      pbind (parse_unary f p1) fun right p2 =>
        parse_factor_loop f (Expr.binop (facOpStr p1.prevTok.type) left right) p2
    else .ok (left, p)

def parse_unary : Nat → PState → Except ParseError (Expr × PState)
  | 0, _ => fuelErr
  | f + 1, p =>
    let (m, p1) := p.matchAny [.MINUS, .NOT]
    if m then
      let op := if p1.prevTok.type = .MINUS then "-" else "not"
      pbind (parse_unary f p1) fun operand p2 => .ok (Expr.unop op operand, p2)
    else parse_call f p

def parse_call : Nat → PState → Except ParseError (Expr × PState)
  | 0, _ => fuelErr
  | f + 1, p => pbind (parse_primary f p) fun e p1 => parse_call_loop f e p1

/-- The postfix loop of `Parser::parse_call`: calls (only on a plain
identifier callee), member access and index access. -/
def parse_call_loop : Nat → Expr → PState → Except ParseError (Expr × PState)
  | 0, _, _ => fuelErr
  | f + 1, e, p =>
    let (mL, p1) := p.matchT .LPAREN
    if mL then
      match e with
      | Expr.ident name =>
        pbind (if p1.checkT .RPAREN then .ok ([], p1) else parse_args f p1 [])
          fun args p2 =>
        pbind (p2.consume .RPAREN "Expected ) after arguments") fun _ p3 =>
          parse_call_loop f (Expr.call name args) p3
      | _ => .error (perror p1 "Expected function name")
    else
      let (mD, p1b) := p.matchT .DOT
      if mD then
        pbind (p1b.consume .IDENTIFIER "Expected member name") fun mem p2 =>
          parse_call_loop f (Expr.member e mem.value) p2
      else
        let (mB, p1c) := p.matchT .LBRACKET
        if mB then
          pbind (parse_expression f p1c) fun idx p2 =>
          pbind (p2.consume .RBRACKET "Expected ] after index") fun _ p3 =>
            parse_call_loop f (Expr.indexAcc e idx) p3
        else .ok (e, p)

/-- The do-while argument loop of `Parser::parse_call`. -/
def parse_args : Nat → PState → List Expr → Except ParseError (List Expr × PState)
  | 0, _, _ => fuelErr
  | f + 1, p, acc =>
    pbind (parse_expression f p) fun a p1 =>
    let acc2 := acc ++ [a]
    let (m, p2) := p1.matchT .COMMA
    if m then parse_args f p2 acc2 else .ok (acc2, p2)

def parse_primary : Nat → PState → Except ParseError (Expr × PState)
  | 0, _ => fuelErr
  | f + 1, p =>
    let (m, p1) := p.matchT .STRING
    if m then .ok (Expr.strLit p1.prevTok.value, p1) else
    let (m, p1) := p1.matchT .NUMBER
    if m then
      let val := p1.prevTok.value
      .ok (Expr.numLit ((IrisValue.stodModel val).getD 0) (!(val.contains (Char.ofNat 46))), p1)
    else
    let (m, p1) := p1.matchT .TRUE
    if m then .ok (Expr.boolLit true, p1) else
    let (m, p1) := p1.matchT .FALSE
    if m then .ok (Expr.boolLit false, p1) else
    let (m, p1) := p1.matchT .SYMBOL
    if m then .ok (Expr.symbol p1.prevTok.value, p1) else
    let (m, p1) := p1.matchT .IDENTIFIER
    if m then .ok (Expr.ident p1.prevTok.value, p1) else
    let (m, p1) := p1.matchT .LBRACKET
    if m then parse_array f p1 else
    let (m, p1) := p1.matchT .LBRACE
    if m then parse_hash f p1 else
    let (m, p1) := p1.matchT .LPAREN
    if m then
      pbind (parse_expression f p1) fun e p2 =>
      pbind (p2.consume .RPAREN "Expected ) after expression") fun _ p3 =>
        .ok (e, p3)
    else .error (perror p1 "Expected expression")

def parse_array : Nat → PState → Except ParseError (Expr × PState)
  | 0, _ => fuelErr
  | f + 1, p =>
    pbind (if p.checkT .RBRACKET then .ok ([], p) else parse_array_loop f p [])
      fun elems p1 =>
    pbind (p1.consume .RBRACKET "Expected ] after array elements") fun _ p2 =>
      .ok (Expr.arrayLit elems, p2)

def parse_array_loop : Nat → PState → List Expr → Except ParseError (List Expr × PState)
  | 0, _, _ => fuelErr
  | f + 1, p, acc =>
    pbind (parse_expression f p.skipNl) fun e p1 =>
    let p2 := p1.skipNl
    let acc2 := acc ++ [e]
    let (m, p3) := p2.matchT .COMMA
    if m then parse_array_loop f p3 acc2 else .ok (acc2, p3)

def parse_hash : Nat → PState → Except ParseError (Expr × PState)
  | 0, _ => fuelErr
  | f + 1, p =>
    pbind (if p.checkT .RBRACE then .ok ([], p) else parse_hash_loop f p [])
      fun pairs p1 =>
    pbind (p1.consume .RBRACE "Expected \x7d after hash elements") fun _ p2 =>
      .ok (Expr.hashLit pairs, p2)

def parse_hash_loop : Nat → PState → List (Expr × Expr) →
    Except ParseError (List (Expr × Expr) × PState)
  | 0, _, _ => fuelErr
  | f + 1, p, acc =>
    pbind (parse_expression f p.skipNl) fun k p1 =>
    pbind (p1.consume .COLON "Expected : in hash literal") fun _ p2 =>
    pbind (parse_expression f p2) fun v p3 =>
    let p4 := p3.skipNl
    let acc2 := acc ++ [(k, v)]
    let (m, p5) := p4.matchT .COMMA
    if m then parse_hash_loop f p5 acc2 else .ok (acc2, p5)

end

/-- The loop of `Parser::parse`: skip newlines, then one statement, until
end of input. -/
def parseLoop : Nat → PState → List Stmt → Except ParseError (List Stmt × PState)
  | 0, _, _ => fuelErr
  | f + 1, p, acc =>
    if p.isAtEnd then .ok (acc, p)
    else
      let p1 := p.skipNl
      if p1.isAtEnd then .ok (acc, p1)
      else pbind (parse_statement f p1) fun s p2 => parseLoop f p2 (acc ++ [s])

/-- `Parser::parse`: tokenize then parse the statement list.  The fuel is
generous: each nested parse call costs one unit and the call depth of any
successful C++ parse is bounded by a small multiple of the token count. -/
def parse (source : String) : Except ParseError (List Stmt) :=
  let toks := tokenize source
  match parseLoop ((toks.length + 1) * 40) ⟨toks, 0⟩ [] with
  | .ok (l, _) => .ok l
  | .error e => .error e

/-! ## Fixtures and helper lemmas for the claim theorems -/

/-- The two-target configuration of the specification scenario: a library
`core` and an executable `app` depending on it. -/
def cfgC6 : BuildConfig :=
  { targets := [ { name := "core", type := .Library },
                 { name := "app", type := .Executable, dependencies := ["core"] } ] }

theorem edgesC6_eval : (Graph.build_from_config cfgC6).edges = [("app", ["core"])] := by
  decide

theorem topoC6_eval : (Graph.build_from_config cfgC6).topological_sort = ["app", "core"] := by
  simp +decide [Graph.topological_sort, Graph.buildIndeg, cfgC6, Graph.build_from_config,
    Graph.add_node, Graph.add_edge, Smap.insert, Smap.lookup, Sset.insert,
    Graph.kahnLoop, Graph.processNeighbors]

theorem hasCycleC6_eval : (Graph.build_from_config cfgC6).has_cycle = false := by
  simp +decide [Graph.has_cycle, Graph.hasCycleAux, Graph.dfsC, cfgC6,
    Graph.build_from_config, Graph.add_node, Graph.add_edge, Smap.insert, Smap.lookup,
    Smap.keys, Sset.insert, Graph.adj]

theorem noCyclePropC6 : ¬ Graph.HasCycleProp (Graph.build_from_config cfgC6) := by
  intro hc
  have h := (Graph.has_cycle_iff _ (Graph.build_from_config_wf cfgC6).2.2.2).mpr hc
  rw [hasCycleC6_eval] at h
  exact Bool.false_ne_true h

/-- Every step of the target-field extraction keeps the target name. -/
theorem extractTarget_name (env : List Frame) (tt n : String) :
    (extractTarget env tt n).name = n := by
  unfold extractTarget
  cases envGet env "sources" <;> cases envGet env "includes" <;>
    cases envGet env "flags" <;> cases envGet env "link_flags" <;>
    cases envGet env "deps" <;> cases envGet env "defines" <;> rfl

/-- The tokenize loop never emits an ERROR token: the push is guarded by
the type check. -/
theorem tokenizeLoop_no_error (fuel : Nat) :
    ∀ (src : List Char) (pos : Nat × Nat) (acc : List Token),
      (∀ t ∈ acc, t.type ≠ .ERROR) →
      ∀ t ∈ tokenizeLoop fuel src pos acc, t.type ≠ .ERROR := by
  induction fuel with
  | zero =>
    intro src pos acc hacc t ht
    rw [tokenizeLoop] at ht
    exact hacc t (List.mem_reverse.mp ht)
  | succ f ih =>
    intro src pos acc hacc t ht
    rw [tokenizeLoop] at ht
    by_cases he : src.isEmpty
    · rw [if_pos he] at ht
      exact hacc t (List.mem_reverse.mp ht)
    · rw [if_neg he] at ht
      rcases hnt : next_token src pos with ⟨tok, src2, pos2⟩
      rw [hnt] at ht
      simp only at ht
      by_cases herr : tok.type = .ERROR
      · rw [if_pos herr] at ht
        have hne : ¬ (tok.type = TokenType.END_OF_FILE) := by
          rw [herr]
          intro hx
          exact TokenType.noConfusion hx
        rw [if_neg hne] at ht
        exact ih src2 pos2 acc hacc t ht
      · rw [if_neg herr] at ht
        have hacc2 : ∀ u ∈ tok :: acc, u.type ≠ .ERROR := by
          intro u hu
          rcases List.mem_cons.mp hu with rfl | hu2
          · exact herr
          · exact hacc u hu2
        by_cases heof : tok.type = .END_OF_FILE
        · rw [if_pos heof] at ht
          exact hacc2 t (List.mem_reverse.mp ht)
        · rw [if_neg heof] at ht
          exact ih src2 pos2 (tok :: acc) hacc2 t ht

/-- The scenario program of the `+=` claim. -/
def srcC2 : String := "flags = [\x22-Wall\x22]\nif true do\n  flags += [\x22-Wextra\x22]\nend"

/-- The token stream of `srcC2`, as `Lexer::tokenize` produces it. -/
def toksC2 : List Token :=
  [⟨.IDENTIFIER, "flags", 1, 6⟩, ⟨.EQ, "", 1, 8⟩, ⟨.LBRACKET, "", 1, 10⟩,
   ⟨.STRING, "-Wall", 1, 17⟩, ⟨.RBRACKET, "", 1, 18⟩, ⟨.NEWLINE, "", 2, 1⟩,
   ⟨.IF, "if", 2, 3⟩, ⟨.TRUE, "true", 2, 8⟩, ⟨.DO, "do", 2, 11⟩, ⟨.NEWLINE, "", 3, 1⟩,
   ⟨.IDENTIFIER, "flags", 3, 8⟩, ⟨.PLUSEQ, "", 3, 11⟩, ⟨.LBRACKET, "", 3, 13⟩,
   ⟨.STRING, "-Wextra", 3, 22⟩, ⟨.RBRACKET, "", 3, 23⟩, ⟨.NEWLINE, "", 4, 1⟩,
   ⟨.END, "end", 4, 4⟩]

/-- The AST of `srcC2`: note the desugared `flags = flags + [...]` inside
the if body. -/
def progC2 : List Stmt :=
  [.assignment "flags" (.arrayLit [.strLit "-Wall"]),
   .ifStmt (.boolLit true)
     [.assignment "flags" (.binop "+" (.ident "flags") (.arrayLit [.strLit "-Wextra"]))]
     none]

set_option maxHeartbeats 1000000 in
theorem tokenize_srcC2 : tokenize srcC2 = toksC2 := by
  simp +decide [tokenize, srcC2, toksC2, tokenizeLoop, next_token, skip_whitespace,
    skip_comment, scanStrLoop, scan_number, scan_ident, scan_symbol, opToken, matchChar,
    posStep, posSteps, peekChar, is_digit, is_alpha, is_alphanumeric, isQuote, escChar,
    keywords]

/-- A source text whose string literal never closes. -/
def srcC9 : String := "x = \x22abc"

set_option maxHeartbeats 1000000 in
theorem tokenize_srcC9 :
    tokenize srcC9 = [⟨.IDENTIFIER, "x", 1, 2⟩, ⟨.EQ, "", 1, 4⟩] := by
  simp +decide [tokenize, srcC9, tokenizeLoop, next_token, skip_whitespace,
    skip_comment, scanStrLoop, scan_number, scan_ident, scan_symbol, opToken, matchChar,
    posStep, posSteps, peekChar, is_digit, is_alpha, is_alphanumeric, isQuote, escChar,
    keywords]

/-! ## The claims -/

/-- C1 (amended version, proved): a runtime value is a falsy condition
exactly when it is nil, the boolean false, the number 0 or the empty
string; arrays and hashes — including empty ones — are truthy.  The
spec instead calls every value other than nil/false truthy, which
`IrisValue::as_bool` refutes for `0` and `""`. -/
theorem C1_truthiness (v : IrisValue) :
    is_truthy v = false ↔
      (v = .nil ∨ v = .bool false ∨ v = .num 0 ∨ v = .str "") := by
  cases v with
  | nil => simp [is_truthy, IrisValue.as_bool]
  | bool b => cases b <;> simp [is_truthy, IrisValue.as_bool]
  | num q => simp [is_truthy, IrisValue.as_bool]
  | str s => simp [is_truthy, IrisValue.as_bool, String.isEmpty_iff]
  | arr l => simp [is_truthy, IrisValue.as_bool]
  | hash m => simp [is_truthy, IrisValue.as_bool]

/-- Counterexample to C1 as stated: the number 0 and the empty string are
falsy conditions, while the empty array is indeed truthy. -/
theorem C1_zero_empty_falsy :
    is_truthy (IrisValue.num 0) = false ∧ is_truthy (IrisValue.str "") = false ∧
      is_truthy (IrisValue.arr []) = true := by decide

set_option maxRecDepth 40000

/-- C2 (code bug): the parser does desugar `flags += e` to
`flags = flags + e` (visible in `progC2`, which `parse` returns for the
scenario source), but evaluating the program leaves `flags` bound to the
NUMBER 0, not `["-Wall", "-Wextra"]`: `eval_binary`'s `+` falls to the
numeric case for two arrays and `as_number` of an array is 0. -/
theorem C2_pluseq_program :
    parse srcC2 = .ok progC2 ∧
    envGet (execute 20 "linux" "x86_64" progC2).2.env "flags" = some (.num 0) := by
  constructor
  · rw [parse, tokenize_srcC2]
    rfl
  · simp +decide [execute, initState, progC2, evalStmts, evalStmt, evalExpr, evalArgs,
      binApply, envGet, envSet, envExists, envDefine, Smap.insert, Smap.lookup,
      is_truthy, IrisValue.as_bool, IrisValue.is_string, IrisValue.as_number]

/-- C3 (code bug): `eval_statement` has no `DependencyBlock` case — the
`dynamic_pointer_cast` chain falls through — so a dependency block is a
silent no-op: its body is never evaluated and the whole interpreter
state, `config.dependencies` included, is returned unchanged. -/
theorem C3_dependency_block_noop (f : Nat) (st : InterpState)
    (name : String) (body : List Stmt) :
    evalStmt (f + 1) st (.dependencyBlock name body) = (.ok (), st) := rfl

/-- C4: on a target graph built from any configuration, `has_cycle` is
true exactly when the graph has a directed cycle, equivalently exactly
when no permutation of the vertices places every edge source before its
destination. -/
theorem C4_has_cycle_iff_topo (cfg : BuildConfig) :
    ((Graph.build_from_config cfg).has_cycle = true ↔
      Graph.HasCycleProp (Graph.build_from_config cfg)) ∧
    ((Graph.build_from_config cfg).has_cycle = true ↔
      ¬ ∃ p, Graph.IsTopoOrder (Graph.build_from_config cfg) p) := by
  have hw := Graph.build_from_config_wf cfg
  have h1 := Graph.has_cycle_iff _ hw.2.2.2
  refine ⟨h1, h1.trans ?_⟩
  constructor
  · exact fun hc => Graph.no_topo_of_cycle _ hc
  · intro hno
    by_contra hnc
    exact hno (Graph.exists_topo_of_no_cycle _ hnc)

/-- C5: on an acyclic target graph, for every dependency edge A→B
(`B ∈ A.dependencies`), `topological_sort` lists both endpoints and
places A strictly before B. -/
theorem C5_topo_edge_order (cfg : BuildConfig) (a b : String)
    (hnc : ¬ Graph.HasCycleProp (Graph.build_from_config cfg))
    (hab : (Graph.build_from_config cfg).EdgeRel a b) :
    a ∈ (Graph.build_from_config cfg).topological_sort ∧
    b ∈ (Graph.build_from_config cfg).topological_sort ∧
    (Graph.build_from_config cfg).topological_sort.indexOf a
      < (Graph.build_from_config cfg).topological_sort.indexOf b :=
  Graph.topological_sort_order _ (Graph.build_from_config_wf cfg) hnc a b hab

/-- C5 at the concrete two-target configuration: edge app→core, and app
is sorted before core. -/
theorem C5_topo_edge_order_witness :
    "app" ∈ (Graph.build_from_config cfgC6).topological_sort ∧
    "core" ∈ (Graph.build_from_config cfgC6).topological_sort ∧
    (Graph.build_from_config cfgC6).topological_sort.indexOf "app"
      < (Graph.build_from_config cfgC6).topological_sort.indexOf "core" :=
  C5_topo_edge_order cfgC6 "app" "core" noCyclePropC6 (by decide)

/-- C6 (amended version, proved): the two-target configuration yields
exactly the edge app → core, and `topological_sort` returns
`["app", "core"]` — edge sources (dependents) come BEFORE their
destinations (dependencies), the opposite of the `[core, app]` order the
spec requires. -/
theorem C6_edge_and_order :
    (Graph.build_from_config cfgC6).edges = [("app", ["core"])] ∧
    (Graph.build_from_config cfgC6).topological_sort = ["app", "core"] :=
  ⟨edgesC6_eval, topoC6_eval⟩

/-- Counterexample to C6 as stated: the returned order is
`["app", "core"]`, which is not the `["core", "app"]` the spec gives. -/
theorem C6_order_counterexample :
    (Graph.build_from_config cfgC6).topological_sort = ["app", "core"] ∧
    (["app", "core"] : List String) ≠ ["core", "app"] :=
  ⟨topoC6_eval, by decide⟩

/-- C7 (amended version, proved): `eval_if`/`eval_unless` push NO child
frame: the chosen branch is evaluated with exactly the environment chain
left by the condition, so a name first assigned in the branch is defined
in the current (enclosing) frame and survives the statement. -/
theorem C7_branch_no_frame (f : Nat) (st st2 : InterpState) (c : Expr)
    (t : List Stmt) (e : Option (List Stmt)) (v : IrisValue)
    (hc : evalExpr f st c = (.ok v, st2)) :
    (is_truthy v = true → evalStmt (f + 1) st (.ifStmt c t e) = evalStmts f st2 t) ∧
    (is_truthy v = false → evalStmt (f + 1) st (.unlessStmt c t) = evalStmts f st2 t) := by
  constructor
  · intro hv
    show (match evalExpr f st c with
      | (.error err, st3) => (.error err, st3)
      | (.ok w, st3) =>
        if is_truthy w then evalStmts f st3 t
        else
          match e with
          | some els => evalStmts f st3 els
          | none => (.ok (), st3)) = evalStmts f st2 t
    rw [hc]
    simp [hv]
  · intro hv
    show (match evalExpr f st c with
      | (.error err, st3) => (.error err, st3)
      | (.ok w, st3) => if is_truthy w then (.ok (), st3) else evalStmts f st3 t)
        = evalStmts f st2 t
    rw [hc]
    simp [hv]

theorem C7_branch_no_frame_witness :
    (is_truthy (.bool true) = true →
      evalStmt 2 (initState "linux" "x86_64") (.ifStmt (.boolLit true) [] none)
        = evalStmts 1 (initState "linux" "x86_64") []) ∧
    (is_truthy (.bool true) = false →
      evalStmt 2 (initState "linux" "x86_64") (.unlessStmt (.boolLit true) [])
        = evalStmts 1 (initState "linux" "x86_64") []) :=
  C7_branch_no_frame 1 (initState "linux" "x86_64") (initState "linux" "x86_64")
    (.boolLit true) [] none (.bool true) rfl

/-- Counterexample to C7 as stated: after `if true do y = 1 end` the
fresh name `y` IS bound in the enclosing (here: global) frame, and the
chain has gained no frame. -/
theorem C7_leak_counterexample :
    envGet (evalStmt 5 (initState "linux" "x86_64")
        (.ifStmt (.boolLit true) [.assignment "y" (.numLit 1 true)] none)).2.env "y"
      = some (.num 1) ∧
    (evalStmt 5 (initState "linux" "x86_64")
        (.ifStmt (.boolLit true) [.assignment "y" (.numLit 1 true)] none)).2.env.length
      = (initState "linux" "x86_64").env.length := by
  constructor <;>
    simp +decide [evalStmt, evalStmts, evalExpr, envGet, envSet, envExists, envDefine,
      initState, Smap.insert, Smap.lookup, is_truthy, IrisValue.as_bool]

/-- C8 (amended version, proved): `eval_target` appends a target with the
block's name to `config.targets` unconditionally — there is no
uniqueness check, so the name list simply grows by one. -/
theorem C8_target_appended (f : Nat) (st st3 : InterpState) (tt n : String)
    (body : List Stmt)
    (h : evalStmts f { st with env := [] :: st.env } body = (.ok (), st3)) :
    List.map (fun t : Target => t.name)
        (evalStmt (f + 1) st (.targetBlock tt n body)).2.config.targets
      = List.map (fun t : Target => t.name) st3.config.targets ++ [n] := by
  show List.map (fun t : Target => t.name)
      (match evalStmts f { st with env := [] :: st.env } body with
        | (.error err, st4) => ((.error err : Except EvalErr Unit), st4)
        | (.ok _, st4) =>
          (.ok (), { st4 with
            config := { st4.config with
              targets := st4.config.targets ++ [extractTarget st4.env tt n] },
            env := st4.env.drop 1 })).2.config.targets = _
  rw [h]
  simp [extractTarget_name]

theorem C8_target_appended_witness :
    List.map (fun t : Target => t.name)
        (evalStmt 2 (initState "linux" "x86_64")
          (.targetBlock "executable" "app" [])).2.config.targets
      = List.map (fun t : Target => t.name)
          ({ initState "linux" "x86_64" with
              env := [] :: (initState "linux" "x86_64").env } : InterpState).config.targets
        ++ ["app"] :=
  C8_target_appended 1 (initState "linux" "x86_64")
    { initState "linux" "x86_64" with env := [] :: (initState "linux" "x86_64").env }
    "executable" "app" [] rfl

/-- Counterexample to C8 as stated: two `executable "app"` blocks leave
`config.targets` with the duplicated name list `["app", "app"]`. -/
theorem C8_duplicate_names_counterexample :
    List.map (fun t : Target => t.name) (execute 9 "linux" "x86_64"
        [.targetBlock "executable" "app" [],
         .targetBlock "executable" "app" []]).2.config.targets = ["app", "app"] ∧
    ¬ (["app", "app"] : List String).Nodup := by
  constructor
  · simp +decide [execute, initState, evalStmts, evalStmt, envGet, envSet, envExists,
      envDefine, Smap.insert, Smap.lookup, targetTypeOf]
  · decide

/-- C9 (code bug): no ERROR token ever survives `tokenize` (the loop
filters them), so the unterminated string of `srcC9` yields just
`[IDENTIFIER x, EQ]` — no error indication and no END_OF_FILE token —
and the ERROR token `scan_string` builds internally carries the position
at the END of input (line 1, column 9), not the start of the string. -/
theorem C9_error_token_dropped :
    (∀ src : String, ∀ t ∈ tokenize src, t.type ≠ .ERROR) ∧
    tokenize srcC9 = [⟨.IDENTIFIER, "x", 1, 2⟩, ⟨.EQ, "", 1, 4⟩] ∧
    (scanStrLoop (Char.ofNat 34) "abc".toList (1, 6) "").1
      = ⟨.ERROR, "Unterminated string", 1, 9⟩ := by
  refine ⟨?_, tokenize_srcC9, by decide⟩
  intro src t ht
  exact tokenizeLoop_no_error (src.length + 1) src.toList (1, 1) [] (by simp) t ht

/-- C10: `eval_binary` guards only `/` with the "Division by zero" check;
`%` truncates both operands with `static_cast<int>` and applies the C++
`%` with no zero check, so a right operand truncating to 0 hits
undefined behaviour (`EvalErr.ub`) instead of a runtime error. -/
theorem C10_mod_unguarded (l r : IrisValue) :
    (r.as_number = 0 → binApply "/" l r = .error (.runtimeError "Division by zero")) ∧
    (cppTrunc r.as_number = 0 → binApply "%" l r = .error .ub) ∧
    (cppTrunc r.as_number ≠ 0 →
      binApply "%" l r
        = .ok (.num ((Int.tmod (cppTrunc l.as_number) (cppTrunc r.as_number) : Int) : ℚ))) := by
  refine ⟨fun h0 => ?_, fun h0 => ?_, fun h0 => ?_⟩ <;>
    simp [binApply, h0]

end IrisBuild
